import Mathlib

/-!
Verification of the `enrede` generic text-encoding library.

This file shallowly embeds the encoding codecs (`src/encoding.rs`,
`src/encoding/{utf,ascii,win}.rs`) and the validated string wrapper
(`src/str.rs`, `src/str/iter.rs`) of the crate, and proves or refutes the
frozen claims about them.

Modelling conventions:
- a byte slice `&[u8]` is a `List Nat` whose elements are below 256
  (the predicate `AllBytes` states the `u8` range where a proof needs it);
- a Rust `char` is its Unicode scalar value, a `Nat` satisfying `IsChar`;
- a Rust operation that can panic (out-of-range index, `unwrap`) is modelled
  with `Option`, `none` standing for the panic;
- `decode_char` is modelled as `decodeOne`, returning the decoded scalar and
  the number of bytes consumed (the source returns the remaining suffix,
  which is the `drop` of the consumed count);
- the `Chars`/`CharIndices` iterators (`src/str/iter.rs`) repeatedly apply
  `decode_char` until the string is empty; this (potentially non-terminating
  on invalid data) loop is modelled with explicit fuel in `decodeSteps`.
-/

namespace Enrede

/-- Result of `Encoding::validate`: mirrors `Result<(), ValidateError>` with
`ValidateError { valid_up_to, error_len }` from `src/encoding.rs`. -/
inductive VRes where
  | ok : VRes
  | err (validUpTo : Nat) (errorLen : Option Nat) : VRes
deriving DecidableEq

/-- All elements of the list are in the `u8` range. -/
def AllBytes (bytes : List Nat) : Prop := ∀ b ∈ bytes, b < 256

instance : DecidablePred AllBytes := fun bytes =>
  inferInstanceAs (Decidable (∀ b ∈ bytes, b < 256))

/-- `c` is a Unicode scalar value (the range of a Rust `char`). -/
def IsChar (c : Nat) : Prop := c < 0x110000 ∧ ¬(0xD800 ≤ c ∧ c < 0xE000)

instance : DecidablePred IsChar := fun _c => inferInstanceAs (Decidable (_ ∧ _))

/-- The closed set of encodings embedded from the crate (the `Encoding` trait
is sealed; these are the codecs the claims quantify over). -/
inductive Enc where
  | utf8 | utf16le | utf16be | utf32le | utf32be
  | ascii | extAscii | win1251 | win1252 | win1252loose
deriving DecidableEq

/-! ### Lookup tables from `src/encoding/win.rs`

`win1251DecodeTable` is `DECODE_MAP_1251` (code points of the 128 chars for
bytes `0x80..=0xFF`), `win1251EncodeTable` is the `ENCODE_MAP_1251` phf map as
an association list `(char, byte - 0x80)`, and `win1252DecodeTable` is
`DECODE_MAP_1252` (chars for bytes `0x80..0xA0`). -/

def win1251DecodeTable : List Nat := [
  1026, 1027, 8218, 1107, 8222, 8230, 8224, 8225, 8364, 8240, 1033, 8249, 1034, 1036, 1035,
  1039, 1106, 8216, 8217, 8220, 8221, 8226, 8211, 8212, 9242, 8482, 1113, 8250, 1114, 1116,
  1115, 1119, 32, 1038, 1118, 1032, 164, 1168, 166, 167, 1025, 169, 1028, 171, 172, 173, 174,
  1031, 176, 177, 1030, 1110, 1169, 181, 182, 183, 1105, 8470, 1108, 187, 1112, 1029, 1109,
  1111, 1040, 1041, 1042, 1043, 1044, 1045, 1046, 1047, 1048, 1049, 1050, 1051, 1052, 1053,
  1054, 1055, 1056, 1057, 1058, 1059, 1060, 1061, 1062, 1063, 1064, 1065, 1066, 1067, 1068,
  1069, 1070, 1071, 1072, 1073, 1074, 1075, 1076, 1077, 1078, 1079, 1080, 1081, 1082, 1083,
  1084, 1085, 1086, 1087, 1088, 1089, 1090, 1091, 1092, 1093, 1094, 1095, 1096, 1097, 1098,
  1099, 1100, 1101, 1102, 1103]

def win1251EncodeTable : List (Nat × Nat) := [
  (1026, 0), (1027, 1), (8218, 2), (1107, 3), (8222, 4), (8230, 5), (8224, 6), (8225, 7),
  (8364, 8), (8240, 9), (1033, 10), (8249, 11), (1034, 12), (1036, 13), (1035, 14), (1039, 15),
  (1106, 16), (8216, 17), (8217, 18), (8220, 19), (8221, 20), (8226, 21), (8211, 22),
  (8212, 23), (9242, 24), (8482, 25), (1113, 26), (8250, 27), (1114, 28), (1116, 29),
  (1115, 30), (1119, 31), (32, 32), (1038, 33), (1118, 34), (1032, 35), (164, 36), (1168, 37),
  (166, 38), (167, 39), (1025, 40), (169, 41), (1028, 42), (171, 43), (172, 44), (173, 45),
  (174, 46), (1031, 47), (176, 48), (177, 49), (1030, 50), (1110, 51), (1169, 52), (181, 53),
  (182, 54), (183, 55), (1105, 56), (8470, 57), (1108, 58), (187, 59), (1112, 60), (1029, 61),
  (1109, 62), (1111, 63), (1040, 64), (1041, 65), (1042, 66), (1043, 67), (1044, 68),
  (1045, 69), (1046, 70), (1047, 71), (1048, 72), (1049, 73), (1050, 74), (1051, 75),
  (1052, 76), (1053, 77), (1054, 78), (1055, 79), (1056, 80), (1057, 81), (1058, 82),
  (1059, 83), (1060, 84), (1061, 85), (1062, 86), (1063, 87), (1064, 88), (1065, 89),
  (1066, 90), (1067, 91), (1068, 92), (1069, 93), (1070, 94), (1071, 95), (1072, 96),
  (1073, 97), (1074, 98), (1075, 99), (1076, 100), (1077, 101), (1078, 102), (1079, 103),
  (1080, 104), (1081, 105), (1082, 106), (1083, 107), (1084, 108), (1085, 109), (1086, 110),
  (1087, 111), (1088, 112), (1089, 113), (1090, 114), (1091, 115), (1092, 116), (1093, 117),
  (1094, 118), (1095, 119), (1096, 120), (1097, 121), (1098, 122), (1099, 123), (1100, 124),
  (1101, 125), (1102, 126), (1103, 127)]

def win1252DecodeTable : List Nat := [
  8364, 129, 8218, 402, 8222, 8230, 8224, 8225, 710, 8240, 352, 8249, 338, 141, 381, 143,
  144, 8216, 8217, 8220, 8221, 8226, 8211, 8212, 732, 8482, 353, 8250, 339, 157, 382, 376]

/-- Association-list lookup, the semantics of `phf::Map::get` (keys in the
map are distinct, so order is irrelevant). -/
def lookupPair : List (Nat × Nat) → Nat → Option Nat
  | [], _ => none
  | (k, v) :: rest, c => if k = c then some v else lookupPair rest c

/-- `Iterator::position(|v| *v == c)`: index of the first occurrence. -/
def posOf : List Nat → Nat → Option Nat
  | [], _ => none
  | x :: rest, c => if x = c then some 0 else (posOf rest c).map (· + 1)

/-! ### UTF-16 (`utf16_impl!` in `src/encoding/utf.rs`) -/

/-- `u16::from_le_bytes([b0, b1])`. -/
def leU16 (b0 b1 : Nat) : Nat := b0 + 256 * b1

/-- `u16::from_be_bytes([b0, b1])`. -/
def beU16 (b0 b1 : Nat) : Nat := 256 * b0 + b1

/-- `u16::to_le_bytes`. -/
def leBytes16 (u : Nat) : List Nat := [u % 256, u / 256 % 256]

/-- `u16::to_be_bytes`. -/
def beBytes16 (u : Nat) : List Nat := [u / 256 % 256, u % 256]

/-- The `Kind` enum of `src/encoding/utf.rs`. -/
inductive Kind where
  | char | high | low
deriving DecidableEq

/-- `Kind::of`. -/
def kindOf (c : Nat) : Kind :=
  if c ≤ 0xD7FF then .char
  else if c ≤ 0xDBFF then .high
  else if c ≤ 0xDFFF then .low
  else .char

/-- `bytes.chunks_exact(2)` mapped through the endianness conversion: the
complete 2-byte code units in order (any odd trailing byte is the remainder
and is not part of the result). -/
def units2 (conv : Nat → Nat → Nat) : List Nat → List Nat
  | b0 :: b1 :: rest => conv b0 b1 :: units2 conv rest
  | _ => []

/-- Outcome of the code-unit scanning loop inside `utf16_impl` `validate`:
either an early return with a `ValidateError`, or loop completion carrying
the final `surrogate` flag. -/
inductive ScanRes where
  | fail (validUpTo : Nat) (errorLen : Option Nat) : ScanRes
  | done (surrogate : Bool) : ScanRes
deriving DecidableEq

/-- The `for (idx, chunk) in chunks.enumerate()` loop of `utf16_impl`
`validate`, tracking the `surrogate` flag. -/
def utf16Scan : List Nat → Nat → Bool → ScanRes
  | [], _, s => .done s
  | u :: rest, idx, s =>
    let k := kindOf u
    if s = false ∧ k = .high then utf16Scan rest (idx + 1) true
    else if s = true ∧ k = .low then utf16Scan rest (idx + 1) false
    else if s = true ∨ k ≠ .char then
      .fail ((if s = true then idx - 1 else idx) * 2)
        (some (if s = true ∧ k ≠ .char then 4 else 2))
    else utf16Scan rest (idx + 1) s

/-- `utf16_impl` `validate`: the odd-length remainder produces a deferred
truncation error, the scan loop may fail early, and a trailing dangling
surrogate is reported (before the deferred remainder error) at `len - 2`. -/
def utf16Validate (conv : Nat → Nat → Nat) (bytes : List Nat) : VRes :=
  let oddErr : Option VRes :=
    if bytes.length % 2 = 1 then some (.err (bytes.length - 1) none) else none
  match utf16Scan (units2 conv bytes) 0 false with
  | .fail v e => .err v e
  | .done true => .err (bytes.length - 2) none
  | .done false => oddErr.getD .ok

/-- `utf16_impl` `decode_char`: reads one code unit; a non-surrogate value is
the scalar itself (2 bytes consumed), otherwise the unit is combined with the
following one as a surrogate pair (4 bytes consumed). `none` models the
out-of-bounds panic on reads past the buffer. -/
def utf16DecodeOne (conv : Nat → Nat → Nat) (bytes : List Nat) : Option (Nat × Nat) := do
  let b0 ← bytes.get? 0
  let b1 ← bytes.get? 1
  let high := conv b0 b1
  if high < 0xD800 ∨ 0xE000 ≤ high then
    some (high, 2)
  else do
    let b2 ← bytes.get? 2
    let b3 ← bytes.get? 3
    let low := conv b2 b3
    some ((high - 0xD800) * 0x400 + (low - 0xDC00) + 0x10000, 4)

/-- `utf16_impl` `char_bound`:
`idx % 2 == 0 && !(0xDC..0xE0).contains(&str.as_bytes()[idx + $idx_add])`
with `idxAdd = 1` for LE and `0` for BE. The indexing into the byte slice is
modelled with `get?`; `none` is the out-of-bounds panic. -/
def utf16CharBound (idxAdd : Nat) (bytes : List Nat) (idx : Nat) : Option Bool :=
  if idx % 2 = 0 then
    (bytes.get? (idx + idxAdd)).map (fun b => !decide (0xDC ≤ b ∧ b < 0xE0))
  else some false

/-- `utf16_impl` `encode_char` via `char::encode_utf16`: scalars below
`0x10000` are one code unit, the rest a surrogate pair. -/
def utf16EncodeChar (toB : Nat → List Nat) (c : Nat) : List Nat :=
  if c < 0x10000 then toB c
  else toB (0xD800 + (c - 0x10000) / 0x400) ++ toB (0xDC00 + (c - 0x10000) % 0x400)

/-- `char::len_utf16` in bytes (`utf16_impl` `char_len`). -/
def utf16CharLen (c : Nat) : Nat := if c < 0x10000 then 2 else 4

/-! ### UTF-32 (`utf32_impl!` in `src/encoding/utf.rs`) -/

/-- `u32::from_le_bytes`. -/
def leU32 (b0 b1 b2 b3 : Nat) : Nat := b0 + 256 * b1 + 65536 * b2 + 16777216 * b3

/-- `u32::from_be_bytes`. -/
def beU32 (b0 b1 b2 b3 : Nat) : Nat := 16777216 * b0 + 65536 * b1 + 256 * b2 + b3

/-- `u32::to_le_bytes`. -/
def leBytes32 (u : Nat) : List Nat :=
  [u % 256, u / 256 % 256, u / 65536 % 256, u / 16777216 % 256]

/-- `u32::to_be_bytes`. -/
def beBytes32 (u : Nat) : List Nat :=
  [u / 16777216 % 256, u / 65536 % 256, u / 256 % 256, u % 256]

/-- `utf32_impl` `validate`: scan `bytes.chunks(4)`; a short trailing chunk is
a truncation error, a unit in the surrogate range or above `0x110000` is a
4-byte error. (The stray `std::dbg!` calls in the source only print and do not
affect the returned value.) -/
def utf32Scan (conv : Nat → Nat → Nat → Nat → Nat) : Nat → List Nat → VRes
  | _, [] => .ok
  | idx, b0 :: b1 :: b2 :: b3 :: rest =>
    let c := conv b0 b1 b2 b3
    if (0xD800 ≤ c ∧ c < 0xE000) ∨ 0x110000 ≤ c then .err (idx * 4) (some 4)
    else utf32Scan conv (idx + 1) rest
  | idx, _ => .err (idx * 4) none

/-- `utf32_impl` `decode_char`: reads 4 bytes, reinterpreting the unit as the
scalar (`char::from_u32_unchecked`). -/
def utf32DecodeOne (conv : Nat → Nat → Nat → Nat → Nat) (bytes : List Nat) :
    Option (Nat × Nat) := do
  let b0 ← bytes.get? 0
  let b1 ← bytes.get? 1
  let b2 ← bytes.get? 2
  let b3 ← bytes.get? 3
  some (conv b0 b1 b2 b3, 4)

/-! ### UTF-8 (`src/encoding/utf.rs`, delegating to `core::str`)

`Utf8::validate` delegates to `core::str::from_utf8` and `Utf8::decode_char`
to `str::chars`; both follow the UTF-8 grammar accepted by the Rust standard
library, embedded here as `utf8Step`: one step decodes the leading character
of the buffer or reports the defect. `error_len` semantics follow
`Utf8Error::error_len`: `some k` when the first `k` bytes of the offending
sequence are a valid prefix of a longer sequence that could not be completed
by the following byte, `none` when the buffer ended inside a sequence. -/

/-- A UTF-8 continuation byte, `0x80..=0xBF`. -/
def utf8Cont (b : Nat) : Bool := decide (0x80 ≤ b ∧ b < 0xC0)

/-- Permitted second bytes of a 3-byte sequence, by leading byte. -/
def utf8Snd3 (b0 b1 : Nat) : Bool :=
  decide ((b0 = 0xE0 ∧ 0xA0 ≤ b1 ∧ b1 ≤ 0xBF) ∨
    (0xE1 ≤ b0 ∧ b0 ≤ 0xEC ∧ 0x80 ≤ b1 ∧ b1 ≤ 0xBF) ∨
    (b0 = 0xED ∧ 0x80 ≤ b1 ∧ b1 ≤ 0x9F) ∨
    (0xEE ≤ b0 ∧ b0 ≤ 0xEF ∧ 0x80 ≤ b1 ∧ b1 ≤ 0xBF))

/-- Permitted second bytes of a 4-byte sequence, by leading byte. -/
def utf8Snd4 (b0 b1 : Nat) : Bool :=
  decide ((b0 = 0xF0 ∧ 0x90 ≤ b1 ∧ b1 ≤ 0xBF) ∨
    (0xF1 ≤ b0 ∧ b0 ≤ 0xF3 ∧ 0x80 ≤ b1 ∧ b1 ≤ 0xBF) ∨
    (b0 = 0xF4 ∧ 0x80 ≤ b1 ∧ b1 ≤ 0x8F))

/-- One step of UTF-8 parsing at the front of the buffer. -/
inductive Utf8Step where
  | bad (errorLen : Option Nat) : Utf8Step
  | char (c : Nat) (width : Nat) : Utf8Step
deriving DecidableEq

/-- Decode or reject the leading UTF-8 sequence of the buffer. -/
def utf8Step : List Nat → Utf8Step
  | [] => .bad none
  | b0 :: rest =>
    if b0 < 0x80 then .char b0 1
    else if b0 < 0xC2 then .bad (some 1)
    else if b0 < 0xE0 then
      match rest.get? 0 with
      | none => .bad none
      | some b1 =>
        if utf8Cont b1 then .char ((b0 - 0xC0) * 0x40 + (b1 - 0x80)) 2
        else .bad (some 1)
    else if b0 < 0xF0 then
      match rest.get? 0 with
      | none => .bad none
      | some b1 =>
        if utf8Snd3 b0 b1 then
          match rest.get? 1 with
          | none => .bad none
          | some b2 =>
            if utf8Cont b2 then
              .char ((b0 - 0xE0) * 0x1000 + (b1 - 0x80) * 0x40 + (b2 - 0x80)) 3
            else .bad (some 2)
        else .bad (some 1)
    else if b0 < 0xF5 then
      match rest.get? 0 with
      | none => .bad none
      | some b1 =>
        if utf8Snd4 b0 b1 then
          match rest.get? 1 with
          | none => .bad none
          | some b2 =>
            if utf8Cont b2 then
              match rest.get? 2 with
              | none => .bad none
              | some b3 =>
                if utf8Cont b3 then
                  .char ((b0 - 0xF0) * 0x40000 + (b1 - 0x80) * 0x1000 +
                    (b2 - 0x80) * 0x40 + (b3 - 0x80)) 4
                else .bad (some 3)
            else .bad (some 2)
        else .bad (some 1)
    else .bad (some 1)

/-- The scanning loop of `core::str::from_utf8` (`Utf8::validate`).
`utf8Step` only ever reports widths `1..4`, so dropping `w - 1` from the tail
equals dropping `w` from the whole buffer. -/
def utf8ScanLoop (idx : Nat) : List Nat → VRes
  | [] => .ok
  | b0 :: rest =>
    match utf8Step (b0 :: rest) with
    | .bad e => .err idx e
    | .char _ w => utf8ScanLoop (idx + w) (rest.drop (w - 1))
termination_by bytes => bytes.length
decreasing_by simp [List.length_drop]; omega

/-- `char::encode_utf8`, by scalar range. -/
def utf8EncodeChar (c : Nat) : List Nat :=
  if c < 0x80 then [c]
  else if c < 0x800 then [0xC0 + c / 0x40, 0x80 + c % 0x40]
  else if c < 0x10000 then [0xE0 + c / 0x1000, 0x80 + c / 0x40 % 0x40, 0x80 + c % 0x40]
  else [0xF0 + c / 0x40000, 0x80 + c / 0x1000 % 0x40, 0x80 + c / 0x40 % 0x40, 0x80 + c % 0x40]

/-- `char::len_utf8` (`Utf8::char_len`). -/
def utf8CharLen (c : Nat) : Nat :=
  if c < 0x80 then 1 else if c < 0x800 then 2 else if c < 0x10000 then 3 else 4

/-! ### Single-byte codecs (`src/encoding/ascii.rs`, `src/encoding/win.rs`) -/

/-- Linear scan rejecting bytes satisfying `bad` with a 1-byte error: the
shape of `Ascii::validate`, `Win1251::validate` and `Win1252::validate`. -/
def scanBad (bad : Nat → Bool) : Nat → List Nat → VRes
  | _, [] => .ok
  | idx, b :: rest => if bad b then .err idx (some 1) else scanBad bad (idx + 1) rest

/-- `Win1252::encode_char` (also `Win1252Loose::encode_char`): identity below
`0x80` and on `0xA0..0x100`, otherwise a reverse search of the decode table. -/
def win1252EncodeChar (c : Nat) : Option (List Nat) :=
  if c < 0x80 ∨ (0xA0 ≤ c ∧ c < 0x100) then some [c]
  else (posOf win1252DecodeTable c).map (fun p => [p + 0x80])

/-- `Win1252::decode_char` (also `Win1252Loose::decode_char`). -/
def win1252DecodeOne (bytes : List Nat) : Option (Nat × Nat) := do
  let b ← bytes.get? 0
  if 0x80 ≤ b ∧ b < 0xA0 then do
    let c ← win1252DecodeTable.get? (b - 0x80)
    some (c, 1)
  else some (b, 1)

/-! ### The `Encoding` trait dispatch -/

/-- `Encoding::validate` for each codec. -/
def validate : Enc → List Nat → VRes
  | .utf8, bytes => utf8ScanLoop 0 bytes
  | .utf16le, bytes => utf16Validate leU16 bytes
  | .utf16be, bytes => utf16Validate beU16 bytes
  | .utf32le, bytes => utf32Scan leU32 0 bytes
  | .utf32be, bytes => utf32Scan beU32 0 bytes
  | .ascii, bytes => scanBad (fun b => decide (127 < b)) 0 bytes
  | .extAscii, _ => .ok
  | .win1251, bytes => scanBad (fun b => decide (b = 0x98)) 0 bytes
  | .win1252, bytes =>
    scanBad (fun b => decide (b = 0x81 ∨ b = 0x8D ∨ b = 0x8F ∨ b = 0x90 ∨ b = 0x9D)) 0 bytes
  | .win1252loose, _ => .ok

/-- `Encoding::encode_char` for each codec, returning the encoded bytes. -/
def encodeChar : Enc → Nat → Option (List Nat)
  | .utf8, c => some (utf8EncodeChar c)
  | .utf16le, c => some (utf16EncodeChar leBytes16 c)
  | .utf16be, c => some (utf16EncodeChar beBytes16 c)
  | .utf32le, c => some (leBytes32 c)
  | .utf32be, c => some (beBytes32 c)
  | .ascii, c => if 127 < c then none else some [c]
  | .extAscii, c => if c < 256 then some [c] else none
  | .win1251, c =>
    if c < 0x80 then some [c]
    else (lookupPair win1251EncodeTable c).map (fun b => [b + 0x80])
  | .win1252, c => win1252EncodeChar c
  | .win1252loose, c => win1252EncodeChar c

/-- `Encoding::decode_char` for each codec, as the decoded scalar and the
number of bytes consumed; `none` models an out-of-bounds panic. -/
def decodeOne : Enc → List Nat → Option (Nat × Nat)
  | .utf8, bytes =>
    match utf8Step bytes with
    | .char c w => some (c, w)
    | .bad _ => none
  | .utf16le, bytes => utf16DecodeOne leU16 bytes
  | .utf16be, bytes => utf16DecodeOne beU16 bytes
  | .utf32le, bytes => utf32DecodeOne leU32 bytes
  | .utf32be, bytes => utf32DecodeOne beU32 bytes
  | .ascii, bytes => (bytes.get? 0).map (fun b => (b, 1))
  | .extAscii, bytes => (bytes.get? 0).map (fun b => (b, 1))
  | .win1251, bytes => do
    let b ← bytes.get? 0
    if b < 0x80 then some (b, 1)
    else do
      let c ← win1251DecodeTable.get? (b - 0x80)
      some (c, 1)
  | .win1252, bytes => win1252DecodeOne bytes
  | .win1252loose, bytes => win1252DecodeOne bytes

/-- `Encoding::char_bound` for each codec. `Utf8::char_bound` is
`str::is_char_boundary`; the UTF-16 codecs index `bytes[idx + idx_add]`
(`none` is the panic); UTF-32 and the single-byte codecs touch no memory. -/
def charBoundQ : Enc → List Nat → Nat → Option Bool
  | .utf8, bytes, idx =>
    if idx = 0 then some true
    else some (match bytes.get? idx with
      | none => decide (idx = bytes.length)
      | some b => decide (b < 0x80 ∨ 0xC0 ≤ b))
  | .utf16le, bytes, idx => utf16CharBound 1 bytes idx
  | .utf16be, bytes, idx => utf16CharBound 0 bytes idx
  | .utf32le, _, idx => some (decide (idx % 4 = 0))
  | .utf32be, _, idx => some (decide (idx % 4 = 0))
  | .ascii, _, _ => some true
  | .extAscii, _, _ => some true
  | .win1251, _, _ => some true
  | .win1252, _, _ => some true
  | .win1252loose, _, _ => some true

/-- `Encoding::char_len` for each codec. -/
def charLen : Enc → Nat → Nat
  | .utf8, c => utf8CharLen c
  | .utf16le, c => utf16CharLen c
  | .utf16be, c => utf16CharLen c
  | .utf32le, _ => 4
  | .utf32be, _ => 4
  | .ascii, c => if c < 128 then 1 else 0
  | .extAscii, c => if c < 256 then 1 else 0
  | .win1251, c => if c < 0x80 ∨ c ∈ win1251DecodeTable then 1 else 0
  | .win1252, c => if c < 0x80 ∨ c ∈ win1252DecodeTable then 1 else 0
  | .win1252loose, c => if 255 < c then 0 else 1

/-- `Encoding::REPLACEMENT` for each codec. -/
def replacementChar : Enc → Nat
  | .utf8 | .utf16le | .utf16be | .utf32le | .utf32be => 0xFFFD
  | .ascii | .extAscii | .win1251 | .win1252 | .win1252loose => 0x1A

/-! ### Iteration (`src/str/iter.rs`)

`Chars::next` returns `None` on the empty string and otherwise applies
`decode_char` and continues on the returned suffix. The loop is modelled with
fuel; since every decode step consumes at least one byte, fuel equal to the
byte length is enough on any buffer the loop fully consumes, so `none` below
means the iteration panicked, read out of bounds, or failed to make progress
within the byte length. -/

/-- Run the `Chars` iteration, collecting `(scalar, width)` pairs. -/
def decodeSteps (e : Enc) : Nat → List Nat → Option (List (Nat × Nat))
  | _, [] => some []
  | 0, _ :: _ => none
  | fuel + 1, bytes => do
    let s ← decodeOne e bytes
    let rest ← decodeSteps e fuel (bytes.drop s.2)
    some (s :: rest)

/-- `CharIndices`: pair each decoded scalar with its running byte offset. -/
def stepsWithIdx (acc : Nat) : List (Nat × Nat) → List (Nat × Nat)
  | [] => []
  | (c, w) :: rest => (acc, c) :: stepsWithIdx (acc + w) rest

/-- `Str::char_indices` as a list of `(byte offset, scalar)` pairs. -/
def charIndicesOf (e : Enc) (bytes : List Nat) : Option (List (Nat × Nat)) :=
  (decodeSteps e bytes.length bytes).map (stepsWithIdx 0)

/-- Byte offsets at which the characters of the buffer start, per the
`char_indices` iteration. -/
def charStartsOf (acc : Nat) : List (Nat × Nat) → List Nat
  | [] => []
  | (_, w) :: rest => acc :: charStartsOf (acc + w) rest

/-! ### The string wrapper (`src/str.rs`) -/

/-- `Str::is_char_boundary`: `idx` compared with the length first, the codec
`char_bound` consulted only for `idx < len`. -/
def isCharBoundary (e : Enc) (bytes : List Nat) (idx : Nat) : Option Bool :=
  if idx = bytes.length then some true
  else if bytes.length < idx then some false
  else charBoundQ e bytes idx

/-- One endpoint of a `RangeBounds<usize>` argument. -/
inductive Bnd where
  | incl (n : Nat) : Bnd
  | excl (n : Nat) : Bnd
  | unbounded : Bnd
deriving DecidableEq

/-- The `start_idx` computation of `Str::check_bounds`. -/
def startIdx : Bnd → Nat
  | .incl i => i
  | .excl i => i + 1
  | .unbounded => 0

/-- The `end_idx` computation of `Str::check_bounds`. For an exclusive end
bound the source computes `*i - 1` on a `usize`; at `i = 0` that underflows
(a panic under debug assertions), modelled as `none`. -/
def endIdx (len : Nat) : Bnd → Option Nat
  | .incl i => some i
  | .excl i => if i = 0 then none else some (i - 1)
  | .unbounded => some len

/-- `Str::check_bounds`: both computed endpoints must be character
boundaries. The outer `Option` is the panic path, the `Bool` the check. -/
def checkBounds (e : Enc) (bytes : List Nat) (s t : Bnd) : Option Bool := do
  let eIdx ← endIdx bytes.length t
  let sb ← isCharBoundary e bytes (startIdx s)
  let eb ← isCharBoundary e bytes eIdx
  some (sb && eb)

/-- `<[u8]>::get(range)`: the slice `bytes[a..b]` when `a ≤ b ≤ len`. -/
def sliceGet (bytes : List Nat) (s t : Bnd) : Option (List Nat) :=
  let a := startIdx s
  let b := match t with
    | .incl i => i + 1
    | .excl i => i
    | .unbounded => bytes.length
  if a ≤ b ∧ b ≤ bytes.length then some ((bytes.drop a).take (b - a)) else none

/-- `Str::get`: `check_bounds` then the raw byte-slice `get`. The inner
`Option` is the function's `Option<&Str>` result; the outer `none` is a
panic inside `check_bounds`. `Index<R> for Str` is `get(...).expect(...)`,
so indexing panics exactly on the inner `none`. -/
def strGet (e : Enc) (bytes : List Nat) (s t : Bnd) : Option (Option (List Nat)) :=
  match checkBounds e bytes s t with
  | none => none
  | some false => some none
  | some true => some (sliceGet bytes s t)

/-- `Str::split_at`: `Some(take idx, drop idx)` if `idx` is a character
boundary strictly inside the string, `None` otherwise. The outer `Option`
models a panic inside `char_bound`. -/
def splitAt (e : Enc) (bytes : List Nat) (idx : Nat) : Option (Option (List Nat × List Nat)) :=
  (isCharBoundary e bytes idx).map (fun b =>
    if b = true ∧ idx < bytes.length then some (bytes.take idx, bytes.drop idx) else none)

/-! ### The recode pipeline (`Encoding::encode`, `Encoding::recode`,
`Str::recode_lossy` in `src/encoding.rs` and `src/str.rs`) -/

/-- `EncodeError`. -/
inductive EncErr where
  | needSpace (len : Nat) : EncErr
  | invalidChar : EncErr
deriving DecidableEq

/-- `RecodeCause` (`src/encoding.rs`). -/
inductive RCause where
  | needSpace (len : Nat) : RCause
  | invalidChar (c : Nat) (len : Nat) : RCause
deriving DecidableEq

/-- `encoding::RecodeError` (`src/encoding.rs`). -/
structure RErr where
  inputUsed : Nat
  outputValid : Nat
  cause : RCause
deriving DecidableEq

/-- Result of `Encoding::recode`, with the written buffer threaded through
(the Rust `out` slice is mutated in place even on the error path). -/
inductive RecRes where
  | ok (outputLen : Nat) (out : List Nat) : RecRes
  | fail (err : RErr) (out : List Nat) : RecRes
deriving DecidableEq

/-- `Encoding::encode`: encode one character at the front of `out`,
returning the written length and the updated buffer. -/
def encodeInto (e : Enc) (c : Nat) (out : List Nat) : EncErr ⊕ (Nat × List Nat) :=
  match encodeChar e c with
  | none => .inl .invalidChar
  | some a =>
    if out.length < a.length then .inl (.needSpace a.length)
    else .inr (a.length, a ++ out.drop a.length)

/-- The `try_fold` inside `Encoding::recode`: encode each `(idx, char)` of
the source iteration at the running output position, stopping at the first
error. The `InvalidChar` cause records the character and its length in the
source encoding `e1`. -/
def recodeFold (e1 e2 : Enc) : List (Nat × Nat) → Nat → List Nat → RecRes
  | [], pos, out => .ok pos out
  | (idx, c) :: rest, pos, out =>
    match encodeInto e2 c (out.drop pos) with
    | .inr (len, written) => recodeFold e1 e2 rest (pos + len) (out.take pos ++ written)
    | .inl (.needSpace len) => .fail ⟨idx, pos, .needSpace len⟩ out
    | .inl .invalidChar => .fail ⟨idx, pos, .invalidChar c (charLen e1 c)⟩ out

/-- `Encoding::recode`: walk the source `char_indices` (the outer `none` is
a panic or non-termination of that iteration on an invalid source). -/
def recode (e1 e2 : Enc) (src : List Nat) (out : List Nat) : Option RecRes :=
  (charIndicesOf e1 src).map (fun pairs => recodeFold e1 e2 pairs 0 out)

/-- The `loop` of `Str::recode_lossy` (`src/str.rs`), with fuel. `origLen` is
`self.1.len()`, the constant growth increment. On `NeedSpace` the output is
grown and the source pointer advanced past the consumed input; on
`InvalidChar` the replacement character is written after the valid output and
the source pointer advanced past the offending character using its
source-encoding `char_len`. The source advance `&ptr[e.input_used()..]` is a
`RangeFrom` slice whose start is a character boundary of the valid source, so
it is modelled as `drop`. `none` models fuel exhaustion (the Rust loop not
having returned within `fuel` iterations) or a panic (`unwrap` of `encode`). -/
def recodeLossyLoop (e1 e2 : Enc) (origLen : Nat) :
    Nat → List Nat → Nat → List Nat → Option (List Nat)
  | 0, _, _, _ => none
  | fuel + 1, ptr, total, out =>
    match recode e1 e2 ptr (out.drop total) with
    | none => none
    | some (.ok len written) => some ((out.take total ++ written).take (total + len))
    | some (.fail err written) =>
      let out1 := out.take total ++ written
      match err.cause with
      | .needSpace _ =>
        recodeLossyLoop e1 e2 origLen fuel (ptr.drop err.inputUsed) (total + err.outputValid)
          (out1 ++ List.replicate origLen 0)
      | .invalidChar _ clen =>
        let rl := charLen e2 (replacementChar e2)
        let out2 := out1 ++ List.replicate rl 0
        match encodeInto e2 (replacementChar e2) (out2.drop (total + err.outputValid)) with
        | .inl _ => none
        | .inr (_, w2) =>
          recodeLossyLoop e1 e2 origLen fuel (ptr.drop (err.inputUsed + clen))
            (total + err.outputValid + rl) (out2.take (total + err.outputValid) ++ w2)

/-- `Str::recode_lossy`: the loop started on a fresh zeroed buffer of the
source's byte length. -/
def recodeLossy (e1 e2 : Enc) (src : List Nat) (fuel : Nat) : Option (List Nat) :=
  recodeLossyLoop e1 e2 src.length fuel src 0 (List.replicate src.length 0)

/-! ### Generic facts about the decode iteration -/

/-- `utf8Step` only accepts sequences that fit in the buffer, of width at
least one. -/
theorem utf8Step_width {bytes : List Nat} {c w : Nat} (h : utf8Step bytes = .char c w) :
    0 < w ∧ w ≤ bytes.length := by
  match bytes with
  | [] => simp [utf8Step] at h
  | b0 :: rest =>
    simp only [utf8Step] at h
    split at h
    · obtain ⟨rfl, rfl⟩ := Utf8Step.char.inj h
      simp
    · split at h
      · exact absurd h (by simp)
      · split at h
        · split at h
          · exact absurd h (by simp)
          · next b1 hb1 =>
            have h1 : 0 < rest.length := (List.get?_eq_some.mp hb1).1
            split at h
            · obtain ⟨rfl, rfl⟩ := Utf8Step.char.inj h
              simp; omega
            · exact absurd h (by simp)
        · split at h
          · split at h
            · exact absurd h (by simp)
            · split at h
              · split at h
                · exact absurd h (by simp)
                · next b2 hb2 =>
                  have h2 : 1 < rest.length := (List.get?_eq_some.mp hb2).1
                  split at h
                  · obtain ⟨rfl, rfl⟩ := Utf8Step.char.inj h
                    simp; omega
                  · exact absurd h (by simp)
              · exact absurd h (by simp)
          · split at h
            · split at h
              · exact absurd h (by simp)
              · split at h
                · split at h
                  · exact absurd h (by simp)
                  · split at h
                    · split at h
                      · exact absurd h (by simp)
                      · next b3 hb3 =>
                        have h3 : 2 < rest.length := (List.get?_eq_some.mp hb3).1
                        split at h
                        · obtain ⟨rfl, rfl⟩ := Utf8Step.char.inj h
                          simp; omega
                        · exact absurd h (by simp)
                    · exact absurd h (by simp)
                · exact absurd h (by simp)
            · exact absurd h (by simp)

/-- Every decode step consumes at least one byte and never reads past the
end of the buffer. -/
theorem decodeOne_width {e : Enc} {bytes : List Nat} {c w : Nat}
    (h : decodeOne e bytes = some (c, w)) : 0 < w ∧ w ≤ bytes.length := by
  cases e <;> simp only [decodeOne] at h
  case utf8 =>
    split at h
    · next heq => obtain ⟨rfl, rfl⟩ := Prod.mk.injEq .. |>.mp (Option.some.inj h)
                  exact utf8Step_width heq
    · exact absurd h (by simp)
  case utf16le | utf16be =>
    simp only [utf16DecodeOne, Option.bind_eq_bind, Option.bind_eq_some] at h
    obtain ⟨b0, hb0, b1, hb1, h⟩ := h
    have h1 : 1 < bytes.length := (List.get?_eq_some.mp hb1).1
    split at h
    · simp only [Option.some.injEq, Prod.mk.injEq] at h
      omega
    · simp only [Option.bind_eq_bind, Option.bind_eq_some] at h
      obtain ⟨b2, hb2, b3, hb3, h⟩ := h
      have h3 : 3 < bytes.length := (List.get?_eq_some.mp hb3).1
      simp only [Option.some.injEq, Prod.mk.injEq] at h
      omega
  case utf32le | utf32be =>
    simp only [utf32DecodeOne, Option.bind_eq_bind, Option.bind_eq_some] at h
    obtain ⟨b0, hb0, b1, hb1, b2, hb2, b3, hb3, h⟩ := h
    have h3 : 3 < bytes.length := (List.get?_eq_some.mp hb3).1
    simp only [Option.some.injEq, Prod.mk.injEq] at h
    omega
  case ascii | extAscii =>
    simp only [Option.map_eq_some'] at h
    obtain ⟨b, hb, h⟩ := h
    have h1 : 0 < bytes.length := (List.get?_eq_some.mp hb).1
    simp only [Prod.mk.injEq] at h
    omega
  case win1251 =>
    simp only [Option.bind_eq_bind, Option.bind_eq_some] at h
    obtain ⟨b, hb, h⟩ := h
    have h1 : 0 < bytes.length := (List.get?_eq_some.mp hb).1
    split at h
    · simp only [Option.some.injEq, Prod.mk.injEq] at h
      omega
    · simp only [Option.bind_eq_bind, Option.bind_eq_some, Option.some.injEq,
        Prod.mk.injEq] at h
      obtain ⟨_, _, _, hw⟩ := h
      omega
  case win1252 | win1252loose =>
    simp only [win1252DecodeOne, Option.bind_eq_bind, Option.bind_eq_some] at h
    obtain ⟨b, hb, h⟩ := h
    have h1 : 0 < bytes.length := (List.get?_eq_some.mp hb).1
    split at h
    · simp only [Option.bind_eq_bind, Option.bind_eq_some, Option.some.injEq,
        Prod.mk.injEq] at h
      obtain ⟨_, _, _, hw⟩ := h
      omega
    · simp only [Option.some.injEq, Prod.mk.injEq] at h
      omega

/-- A completed decode iteration accounts for every byte of the buffer:
the widths of the decoded characters sum to its length. -/
theorem decodeSteps_sum {e : Enc} :
    ∀ {fuel : Nat} {bytes : List Nat} {steps : List (Nat × Nat)},
      decodeSteps e fuel bytes = some steps →
      (steps.map (fun p => p.2)).sum = bytes.length := by
  intro fuel
  induction fuel with
  | zero =>
    intro bytes steps h
    cases bytes with
    | nil => simp only [decodeSteps, Option.some.injEq] at h; simp [← h]
    | cons b rest => simp [decodeSteps] at h
  | succ n ih =>
    intro bytes steps h
    cases bytes with
    | nil => simp only [decodeSteps, Option.some.injEq] at h; simp [← h]
    | cons b rest =>
      simp only [decodeSteps, Option.bind_eq_bind, Option.bind_eq_some,
        Option.some.injEq] at h
      obtain ⟨⟨c, w⟩, hcw, steps2, hsteps2, rfl⟩ := h
      have hw := decodeOne_width hcw
      have := ih hsteps2
      simp only [List.map_cons, List.sum_cons, this, List.length_drop]
      simp only [List.length_cons] at hw ⊢
      omega

/-- Membership in `charStartsOf` with accumulator `a` is a shift of
membership at accumulator `0`. -/
theorem charStartsOf_mem :
    ∀ (steps : List (Nat × Nat)) (a x : Nat),
      x ∈ charStartsOf a steps ↔ ∃ y ∈ charStartsOf 0 steps, x = a + y := by
  intro steps
  induction steps with
  | nil => intro a x; simp [charStartsOf]
  | cons p rest ih =>
    intro a x
    obtain ⟨c, w⟩ := p
    simp only [charStartsOf, List.mem_cons, ih (a + w), ih (0 + w)]
    constructor
    · rintro (rfl | ⟨y, hy, rfl⟩)
      · exact ⟨0, Or.inl rfl, by omega⟩
      · exact ⟨w + y, Or.inr ⟨y, hy, by omega⟩, by omega⟩
    · rintro ⟨y, hy, rfl⟩
      rcases hy with rfl | ⟨z, hz, rfl⟩
      · left; omega
      · right; exact ⟨z, hz, by omega⟩

/-- Membership in the character-start offsets of a step list headed by a
character of width `w`. -/
theorem charStartsOf_cons_mem {c w i : Nat} {steps : List (Nat × Nat)} :
    i ∈ charStartsOf 0 ((c, w) :: steps) ↔ i = 0 ∨ (w ≤ i ∧ i - w ∈ charStartsOf 0 steps) := by
  simp only [charStartsOf, List.mem_cons, charStartsOf_mem steps (0 + w) i]
  constructor
  · rintro (rfl | ⟨y, hy, rfl⟩)
    · exact Or.inl rfl
    · refine Or.inr ⟨by omega, ?_⟩
      have hyw : 0 + w + y - w = y := by omega
      rw [hyw]
      exact hy
  · rintro (rfl | ⟨hwi, hmem⟩)
    · exact Or.inl rfl
    · exact Or.inr ⟨i - w, hmem, by omega⟩

/-- When every step has width 1 (the single-byte codecs), every offset below
the total length is a character start. -/
theorem charStartsOf_uniform1 :
    ∀ (steps : List (Nat × Nat)), (∀ p ∈ steps, p.2 = 1) →
      ∀ (i : Nat), i ∈ charStartsOf 0 steps ↔ i < (steps.map (fun p => p.2)).sum := by
  intro steps
  induction steps with
  | nil => intro _ i; simp [charStartsOf]
  | cons p rest ih =>
    intro hall i
    obtain ⟨c, w⟩ := p
    have hw : w = 1 := hall (c, w) (List.mem_cons_self ..)
    subst hw
    have hrest : ∀ p ∈ rest, p.2 = 1 := fun p hp => hall p (List.mem_cons_of_mem _ hp)
    rw [charStartsOf_cons_mem]
    simp only [List.map_cons, List.sum_cons]
    rw [ih hrest (i - 1)]
    omega

/-- When every step has width 4 (the UTF-32 codecs), the character starts
are exactly the multiples of 4 below the total length. -/
theorem charStartsOf_uniform4 :
    ∀ (steps : List (Nat × Nat)), (∀ p ∈ steps, p.2 = 4) →
      ∀ (i : Nat), i ∈ charStartsOf 0 steps ↔ i % 4 = 0 ∧ i < (steps.map (fun p => p.2)).sum := by
  intro steps
  induction steps with
  | nil => intro _ i; simp [charStartsOf]
  | cons p rest ih =>
    intro hall i
    obtain ⟨c, w⟩ := p
    have hw : w = 4 := hall (c, w) (List.mem_cons_self ..)
    subst hw
    have hrest : ∀ p ∈ rest, p.2 = 4 := fun p hp => hall p (List.mem_cons_of_mem _ hp)
    rw [charStartsOf_cons_mem]
    simp only [List.map_cons, List.sum_cons]
    rw [ih hrest (i - 4)]
    omega

/-! ### The single-byte codecs -/

/-- The codecs whose characters all occupy exactly one byte. -/
def isSingleByte : Enc → Bool
  | .ascii | .extAscii | .win1251 | .win1252 | .win1252loose => true
  | .utf8 | .utf16le | .utf16be | .utf32le | .utf32be => false

theorem win1251DecodeTable_len : win1251DecodeTable.length = 128 := by rfl

theorem win1252DecodeTable_len : win1252DecodeTable.length = 32 := by rfl

/-- A single-byte codec decodes one character from any nonempty buffer of
`u8` values, consuming one byte. -/
theorem singleByte_decodeOne {e : Enc} (he : isSingleByte e = true) {bytes : List Nat}
    (hb : AllBytes bytes) (hne : bytes ≠ []) : ∃ c, decodeOne e bytes = some (c, 1) := by
  obtain ⟨b, rest, rfl⟩ := List.exists_cons_of_ne_nil hne
  have hb0 : b < 256 := hb b (List.mem_cons_self ..)
  cases e <;> simp only [isSingleByte, Bool.false_eq_true] at he
  case ascii | extAscii => exact ⟨b, rfl⟩
  case win1251 =>
    simp only [decodeOne, List.get?_cons_zero, Option.bind_eq_bind, Option.some_bind]
    split
    · exact ⟨b, rfl⟩
    · cases hc : win1251DecodeTable.get? (b - 0x80) with
      | none =>
        have := List.get?_eq_none.mp hc
        rw [win1251DecodeTable_len] at this
        omega
      | some c => exact ⟨c, by simp [hc]⟩
  case win1252 | win1252loose =>
    simp only [decodeOne, win1252DecodeOne, List.get?_cons_zero, Option.bind_eq_bind,
      Option.some_bind]
    split
    · next hrange =>
      cases hc : win1252DecodeTable.get? (b - 0x80) with
      | none =>
        have := List.get?_eq_none.mp hc
        rw [win1252DecodeTable_len] at this
        omega
      | some c => exact ⟨c, by simp [hc]⟩
    · exact ⟨b, rfl⟩

/-- A single-byte codec fully decodes any buffer of `u8` values, one byte per
character. -/
theorem singleByte_steps {e : Enc} (he : isSingleByte e = true) :
    ∀ (fuel : Nat) (bytes : List Nat), AllBytes bytes → bytes.length ≤ fuel →
      ∃ steps, decodeSteps e fuel bytes = some steps ∧ ∀ p ∈ steps, p.2 = 1 := by
  intro fuel
  induction fuel with
  | zero =>
    intro bytes _ hlen
    have : bytes = [] := List.eq_nil_of_length_eq_zero (by omega)
    subst this
    exact ⟨[], rfl, by simp⟩
  | succ n ih =>
    intro bytes hb hlen
    cases bytes with
    | nil => exact ⟨[], rfl, by simp⟩
    | cons b rest =>
      obtain ⟨c, hc⟩ := singleByte_decodeOne he hb (by simp)
      have hbrest : AllBytes rest := fun x hx => hb x (List.mem_cons_of_mem _ hx)
      obtain ⟨steps2, hsteps2, hw2⟩ := ih rest hbrest (by simp at hlen ⊢; omega)
      refine ⟨(c, 1) :: steps2, ?_, ?_⟩
      · simp only [decodeSteps, Option.bind_eq_bind, hc, Option.some_bind,
          List.drop_succ_cons, List.drop_zero, hsteps2, Option.some_bind]
      · intro p hp
        rcases List.mem_cons.mp hp with rfl | hmem
        · rfl
        · exact hw2 p hmem

/-- A single-byte codec reports every index as a character boundary. -/
theorem singleByte_charBound {e : Enc} (he : isSingleByte e = true)
    (bytes : List Nat) (i : Nat) : charBoundQ e bytes i = some true := by
  cases e <;> simp only [isSingleByte, Bool.false_eq_true] at he <;> rfl

/-! ### UTF-16 code-unit structure -/

theorem kindOf_char_iff {u : Nat} : kindOf u = .char ↔ u < 0xD800 ∨ 0xE000 ≤ u := by
  unfold kindOf
  split_ifs <;> simp_all <;> omega

theorem kindOf_high_iff {u : Nat} : kindOf u = .high ↔ 0xD800 ≤ u ∧ u ≤ 0xDBFF := by
  unfold kindOf
  split_ifs <;> simp_all <;> omega

theorem kindOf_low_iff {u : Nat} : kindOf u = .low ↔ 0xDC00 ≤ u ∧ u ≤ 0xDFFF := by
  unfold kindOf
  split_ifs <;> simp_all <;> omega

/-- Fully paired well-formed UTF-16 code-unit sequences: each unit is either
a non-surrogate character or the high half of a high–low pair. -/
inductive WFU : List Nat → Prop where
  | nil : WFU []
  | char {u : Nat} {rest : List Nat} : kindOf u = .char → WFU rest → WFU (u :: rest)
  | pair {h l : Nat} {rest : List Nat} : kindOf h = .high → kindOf l = .low → WFU rest →
      WFU (h :: l :: rest)

/-- The scan loop accepts a fully paired unit sequence, ending with the
surrogate flag clear. -/
theorem utf16Scan_wfu {us : List Nat} (h : WFU us) :
    ∀ idx, utf16Scan us idx false = .done false := by
  induction h with
  | nil => intro idx; rfl
  | char hk _ ih =>
    intro idx
    simp only [utf16Scan, hk]
    simp only [reduceCtorEq, and_false, if_false, false_and, if_false, false_or,
      ne_eq, not_true_eq_false, if_false]
    exact ih (idx + 1)
  | pair hkh hkl _ ih =>
    intro idx
    simp only [utf16Scan, hkh, hkl]
    simp
    exact ih (idx + 2)

/-- The scan loop on a fully paired sequence followed by one dangling high
surrogate ends with the surrogate flag set. -/
theorem utf16Scan_dangling {us : List Nat} (h : WFU us) {u : Nat} (hk : kindOf u = .high) :
    ∀ idx, utf16Scan (us ++ [u]) idx false = .done true := by
  induction h with
  | nil =>
    intro idx
    simp only [List.nil_append, utf16Scan, hk]
    simp
  | char hkc _ ih =>
    intro idx
    simp only [List.cons_append, utf16Scan, hkc]
    simp only [reduceCtorEq, and_false, if_false, false_and, if_false, false_or,
      ne_eq, not_true_eq_false, if_false]
    exact ih (idx + 1)
  | pair hkh hkl _ ih =>
    intro idx
    simp only [List.cons_append, utf16Scan, hkh, hkl]
    simp
    exact ih (idx + 2)

/-- A successful `utf16_impl` `validate` means the byte length is even and
the scan loop completed with the surrogate flag clear. -/
theorem utf16Validate_ok {conv : Nat → Nat → Nat} {bytes : List Nat}
    (h : utf16Validate conv bytes = .ok) :
    bytes.length % 2 = 0 ∧ utf16Scan (units2 conv bytes) 0 false = .done false := by
  simp only [utf16Validate] at h
  split at h
  · exact absurd h (by simp)
  · exact absurd h (by simp)
  · next hscan =>
    split at h
    · exact absurd h (by simp)
    · next hodd => exact ⟨by omega, hscan⟩

/-- Byte sequences forming well-formed UTF-16 under the given endianness:
pairs of bytes that are non-surrogate units or high–low surrogate pairs. -/
inductive WFB (conv : Nat → Nat → Nat) : List Nat → Prop where
  | nil : WFB conv []
  | one {b0 b1 : Nat} {rest : List Nat} : kindOf (conv b0 b1) = .char → WFB conv rest →
      WFB conv (b0 :: b1 :: rest)
  | pair {b0 b1 b2 b3 : Nat} {rest : List Nat} : kindOf (conv b0 b1) = .high →
      kindOf (conv b2 b3) = .low → WFB conv rest → WFB conv (b0 :: b1 :: b2 :: b3 :: rest)

/-- An even-length buffer accepted by the scan loop is well-formed UTF-16. -/
theorem utf16Scan_wfb {conv : Nat → Nat → Nat} :
    ∀ (n : Nat) (bytes : List Nat), bytes.length ≤ n → bytes.length % 2 = 0 →
      ∀ idx, utf16Scan (units2 conv bytes) idx false = .done false → WFB conv bytes := by
  intro n
  induction n with
  | zero =>
    intro bytes hlen _ _ _
    have : bytes = [] := List.eq_nil_of_length_eq_zero (by omega)
    subst this; exact WFB.nil
  | succ n ih =>
    intro bytes hlen heven idx hscan
    rcases bytes with _ | ⟨b0, _ | ⟨b1, rest⟩⟩
    · exact WFB.nil
    · simp at heven
    · simp only [List.length_cons] at hlen heven
      rw [show units2 conv (b0 :: b1 :: rest) = conv b0 b1 :: units2 conv rest from rfl]
        at hscan
      rcases hk : kindOf (conv b0 b1) with _ | _ | _
      · -- a non-surrogate unit
        simp only [utf16Scan, hk] at hscan
        simp at hscan
        exact WFB.one hk (ih rest (by omega) (by omega) (idx + 1) hscan)
      · -- a high surrogate: the next unit must exist and be a low surrogate
        simp only [utf16Scan, hk] at hscan
        simp at hscan
        rcases rest with _ | ⟨b2, _ | ⟨b3, rest2⟩⟩
        · simp [units2, utf16Scan] at hscan
        · simp [units2, utf16Scan] at hscan
        · simp only [List.length_cons] at hlen heven
          rw [show units2 conv (b2 :: b3 :: rest2) = conv b2 b3 :: units2 conv rest2 from rfl]
            at hscan
          rcases hkl : kindOf (conv b2 b3) with _ | _ | _
          · simp [utf16Scan, hkl] at hscan
          · simp [utf16Scan, hkl] at hscan
          · simp only [utf16Scan, hkl] at hscan
            simp at hscan
            exact WFB.pair hk hkl (ih rest2 (by omega) (by omega) (idx + 1 + 1) hscan)
      · -- a lone low surrogate is rejected
        simp [utf16Scan, hk] at hscan

/-- On a well-formed buffer, `utf16_impl` `decode_char` consumes a
non-surrogate unit (2 bytes) or a surrogate pair (4 bytes). -/
theorem wfb_decodeOne_char {conv : Nat → Nat → Nat} {b0 b1 : Nat} (rest : List Nat)
    (hk : kindOf (conv b0 b1) = .char) :
    utf16DecodeOne conv (b0 :: b1 :: rest) = some (conv b0 b1, 2) := by
  simp only [utf16DecodeOne, List.get?_cons_zero, List.get?_cons_succ, Option.bind_eq_bind,
    Option.some_bind]
  rw [if_pos (by have := kindOf_char_iff.mp hk; omega)]

theorem wfb_decodeOne_pair {conv : Nat → Nat → Nat} {b0 b1 b2 b3 : Nat} (rest : List Nat)
    (hkh : kindOf (conv b0 b1) = .high) :
    utf16DecodeOne conv (b0 :: b1 :: b2 :: b3 :: rest) =
      some ((conv b0 b1 - 0xD800) * 0x400 + (conv b2 b3 - 0xDC00) + 0x10000, 4) := by
  simp only [utf16DecodeOne, List.get?_cons_zero, List.get?_cons_succ, Option.bind_eq_bind,
    Option.some_bind]
  rw [if_neg (by have := kindOf_high_iff.mp hkh; omega)]

/-- A well-formed UTF-16 buffer is fully consumed by the decode iteration. -/
theorem wfb_steps {e : Enc} {conv : Nat → Nat → Nat}
    (hdec : ∀ bs, decodeOne e bs = utf16DecodeOne conv bs) :
    ∀ {bytes : List Nat}, WFB conv bytes → ∀ fuel, bytes.length ≤ fuel →
      ∃ steps, decodeSteps e fuel bytes = some steps := by
  intro bytes hwfb
  induction hwfb with
  | nil =>
    intro fuel _
    exact ⟨[], by cases fuel <;> rfl⟩
  | @one b0 b1 rest hk _ ih =>
    intro fuel hlen
    simp only [List.length_cons] at hlen
    rcases fuel with _ | m
    · omega
    · obtain ⟨steps2, hs2⟩ := ih m (by omega)
      have hd : decodeOne e (b0 :: b1 :: rest) = some (conv b0 b1, 2) := by
        rw [hdec]; exact wfb_decodeOne_char rest hk
      exact ⟨(conv b0 b1, 2) :: steps2, by
        simp only [decodeSteps, Option.bind_eq_bind, hd, Option.some_bind,
          List.drop_succ_cons, List.drop_zero, hs2]⟩
  | @pair b0 b1 b2 b3 rest hkh hkl _ ih =>
    intro fuel hlen
    simp only [List.length_cons] at hlen
    rcases fuel with _ | m
    · omega
    · obtain ⟨steps2, hs2⟩ := ih m (by omega)
      have hd : decodeOne e (b0 :: b1 :: b2 :: b3 :: rest) =
          some ((conv b0 b1 - 0xD800) * 0x400 + (conv b2 b3 - 0xDC00) + 0x10000, 4) := by
        rw [hdec]; exact wfb_decodeOne_pair rest hkh
      exact ⟨((conv b0 b1 - 0xD800) * 0x400 + (conv b2 b3 - 0xDC00) + 0x10000, 4) :: steps2,
        by simp only [decodeSteps, Option.bind_eq_bind, hd, Option.some_bind,
          List.drop_succ_cons, List.drop_zero, hs2]⟩

/-- The accessed byte of `utf16_impl` `char_bound` lies in the leading unit
when the offset is 0 or 2. -/
theorem get?_two_prefix {b0 b1 : Nat} {add : Nat} (hadd : add < 2) (l : List Nat) :
    (b0 :: b1 :: l).get? add = [b0, b1].get? add := by
  match add, hadd with
  | 0, _ => rfl
  | 1, _ => rfl

/-- `utf16_impl` `char_bound` only looks at the unit containing the offset:
a two-byte shift. -/
theorem utf16CharBound_shift2 {add : Nat} (b0 b1 : Nat) (rest : List Nat) {i : Nat}
    (hi : 2 ≤ i) :
    utf16CharBound add (b0 :: b1 :: rest) i = utf16CharBound add rest (i - 2) := by
  unfold utf16CharBound
  have h2 : i % 2 = 0 ↔ (i - 2) % 2 = 0 := by omega
  have h3 : (b0 :: b1 :: rest).get? (i + add) = rest.get? (i - 2 + add) := by
    have he : i + add = (i - 2 + add) + 1 + 1 := by omega
    rw [he, List.get?_cons_succ, List.get?_cons_succ]
  by_cases hp : i % 2 = 0
  · rw [if_pos hp, if_pos (h2.mp hp), h3]
  · rw [if_neg hp, if_neg (fun hq => hp (h2.mpr hq))]

/-- On a well-formed UTF-16 buffer, `char_bound` at any in-range offset is
the boolean "this offset starts a character of the decode iteration". -/
theorem wfb_charBound {e : Enc} {conv : Nat → Nat → Nat} {add : Nat} (hadd : add < 2)
    (hdec : ∀ bs, decodeOne e bs = utf16DecodeOne conv bs)
    (hcb : ∀ bs i, charBoundQ e bs i = utf16CharBound add bs i)
    (hlow : ∀ b0 b1 b : Nat, b0 < 256 → b1 < 256 → [b0, b1].get? add = some b →
      ((0xDC ≤ b ∧ b < 0xE0) ↔ kindOf (conv b0 b1) = .low)) :
    ∀ {bytes : List Nat}, WFB conv bytes → AllBytes bytes →
      ∀ (fuel : Nat) (steps : List (Nat × Nat)), decodeSteps e fuel bytes = some steps →
      ∀ i, i < bytes.length →
        charBoundQ e bytes i = some (decide (i ∈ charStartsOf 0 steps)) := by
  intro bytes hwfb
  induction hwfb with
  | nil =>
    intro _ _ _ _ i hi
    simp at hi
  | @one b0 b1 rest hk hwr ih =>
    intro hab fuel steps hst i hi
    rcases fuel with _ | m
    · simp [decodeSteps] at hst
    · have hd : decodeOne e (b0 :: b1 :: rest) = some (conv b0 b1, 2) := by
        rw [hdec]; exact wfb_decodeOne_char rest hk
      simp only [decodeSteps, Option.bind_eq_bind, hd, Option.some_bind,
        List.drop_succ_cons, List.drop_zero, Option.bind_eq_some, Option.some.injEq] at hst
      obtain ⟨steps2, hs2, rfl⟩ := hst
      have habr : AllBytes rest := fun x hx =>
        hab x (List.mem_cons_of_mem _ (List.mem_cons_of_mem _ hx))
      have hb0 : b0 < 256 := hab b0 (List.mem_cons_self ..)
      have hb1 : b1 < 256 := hab b1 (List.mem_cons_of_mem _ (List.mem_cons_self ..))
      rw [hcb]
      rcases Nat.lt_or_ge i 2 with hi2 | hi2
      · interval_cases i
        · -- offset 0: the unit here is not a low surrogate
          obtain ⟨b, hbg⟩ : ∃ b, ([b0, b1].get? add) = some b := by
            match add, hadd with
            | 0, _ => exact ⟨b0, rfl⟩
            | 1, _ => exact ⟨b1, rfl⟩
          have hnr : ¬(0xDC ≤ b ∧ b < 0xE0) := fun hr => by
            have := (hlow b0 b1 b hb0 hb1 hbg).mp hr
            rw [hk] at this
            exact absurd this (by simp)
          have hmem : (0 : Nat) ∈ charStartsOf 0 ((conv b0 b1, 2) :: steps2) :=
            List.mem_cons_self ..
          rw [utf16CharBound, if_pos (by omega), Nat.zero_add, get?_two_prefix hadd, hbg]
          simp only [Option.map_some']
          rw [decide_eq_true hmem, decide_eq_false hnr]
          rfl
        · -- offset 1: odd, never a boundary nor a start
          have hmem : (1 : Nat) ∉ charStartsOf 0 ((conv b0 b1, 2) :: steps2) := by
            rw [charStartsOf_cons_mem]
            rintro (h | ⟨h, _⟩) <;> omega
          rw [utf16CharBound, if_neg (by omega), decide_eq_false hmem]
      · -- offsets inside the tail: shift by one unit
        rw [utf16CharBound_shift2 b0 b1 rest hi2, ← hcb,
          ih habr m steps2 hs2 (i - 2) (by simp at hi; omega)]
        have hiff : (i - 2) ∈ charStartsOf 0 steps2 ↔
            i ∈ charStartsOf 0 ((conv b0 b1, 2) :: steps2) := by
          rw [charStartsOf_cons_mem]
          constructor
          · intro h; exact Or.inr ⟨by omega, h⟩
          · rintro (rfl | ⟨_, h⟩)
            · omega
            · exact h
        rw [decide_eq_decide.mpr hiff]
  | @pair b0 b1 b2 b3 rest hkh hkl hwr ih =>
    intro hab fuel steps hst i hi
    rcases fuel with _ | m
    · simp [decodeSteps] at hst
    · have hd : decodeOne e (b0 :: b1 :: b2 :: b3 :: rest) =
          some ((conv b0 b1 - 0xD800) * 0x400 + (conv b2 b3 - 0xDC00) + 0x10000, 4) := by
        rw [hdec]; exact wfb_decodeOne_pair rest hkh
      simp only [decodeSteps, Option.bind_eq_bind, hd, Option.some_bind,
        List.drop_succ_cons, List.drop_zero, Option.bind_eq_some, Option.some.injEq] at hst
      obtain ⟨steps2, hs2, rfl⟩ := hst
      have habr : AllBytes rest := fun x hx => hab x (by simp [hx])
      have hb0 : b0 < 256 := hab b0 (by simp)
      have hb1 : b1 < 256 := hab b1 (by simp)
      have hb2 : b2 < 256 := hab b2 (by simp)
      have hb3 : b3 < 256 := hab b3 (by simp)
      rw [hcb]
      rcases Nat.lt_or_ge i 4 with hi4 | hi4
      · interval_cases i
        · -- offset 0: a high surrogate unit, not low
          obtain ⟨b, hbg⟩ : ∃ b, ([b0, b1].get? add) = some b := by
            match add, hadd with
            | 0, _ => exact ⟨b0, rfl⟩
            | 1, _ => exact ⟨b1, rfl⟩
          have hnr : ¬(0xDC ≤ b ∧ b < 0xE0) := fun hr => by
            have := (hlow b0 b1 b hb0 hb1 hbg).mp hr
            rw [hkh] at this
            exact absurd this (by simp)
          have hmem : (0 : Nat) ∈ charStartsOf 0 (((conv b0 b1 - 0xD800) * 0x400 +
              (conv b2 b3 - 0xDC00) + 0x10000, 4) :: steps2) := List.mem_cons_self ..
          rw [utf16CharBound, if_pos (by omega), Nat.zero_add, get?_two_prefix hadd, hbg]
          simp only [Option.map_some']
          rw [decide_eq_true hmem, decide_eq_false hnr]
          rfl
        · have hmem : (1 : Nat) ∉ charStartsOf 0 (((conv b0 b1 - 0xD800) * 0x400 +
              (conv b2 b3 - 0xDC00) + 0x10000, 4) :: steps2) := by
            rw [charStartsOf_cons_mem]
            rintro (h | ⟨h, _⟩) <;> omega
          rw [utf16CharBound, if_neg (by omega), decide_eq_false hmem]
        · -- offset 2: the low half of the surrogate pair
          obtain ⟨b, hbg⟩ : ∃ b, ([b2, b3].get? add) = some b := by
            match add, hadd with
            | 0, _ => exact ⟨b2, rfl⟩
            | 1, _ => exact ⟨b3, rfl⟩
          have hr : 0xDC ≤ b ∧ b < 0xE0 := (hlow b2 b3 b hb2 hb3 hbg).mpr hkl
          have hmem : (2 : Nat) ∉ charStartsOf 0 (((conv b0 b1 - 0xD800) * 0x400 +
              (conv b2 b3 - 0xDC00) + 0x10000, 4) :: steps2) := by
            rw [charStartsOf_cons_mem]
            rintro (h | ⟨h, _⟩) <;> omega
          have hg : (b0 :: b1 :: b2 :: b3 :: rest).get? (2 + add) = [b2, b3].get? add := by
            rw [show 2 + add = add + 1 + 1 from by omega, List.get?_cons_succ,
              List.get?_cons_succ, get?_two_prefix hadd]
          rw [utf16CharBound, if_pos (by omega), hg, hbg]
          simp only [Option.map_some']
          rw [decide_eq_false hmem, decide_eq_true hr]
          rfl
        · have hmem : (3 : Nat) ∉ charStartsOf 0 (((conv b0 b1 - 0xD800) * 0x400 +
              (conv b2 b3 - 0xDC00) + 0x10000, 4) :: steps2) := by
            rw [charStartsOf_cons_mem]
            rintro (h | ⟨h, _⟩) <;> omega
          rw [utf16CharBound, if_neg (by omega), decide_eq_false hmem]
      · -- offsets inside the tail: shift by the pair
        have hsh : utf16CharBound add (b0 :: b1 :: b2 :: b3 :: rest) i =
            utf16CharBound add rest (i - 4) := by
          rw [utf16CharBound_shift2 b0 b1 _ (by omega),
            utf16CharBound_shift2 b2 b3 _ (by omega)]
          congr 1
        rw [hsh, ← hcb, ih habr m steps2 hs2 (i - 4) (by simp at hi; omega)]
        have hiff : (i - 4) ∈ charStartsOf 0 steps2 ↔
            i ∈ charStartsOf 0 (((conv b0 b1 - 0xD800) * 0x400 +
              (conv b2 b3 - 0xDC00) + 0x10000, 4) :: steps2) := by
          rw [charStartsOf_cons_mem]
          constructor
          · intro h; exact Or.inr ⟨by omega, h⟩
          · rintro (rfl | ⟨_, h⟩)
            · omega
            · exact h
        rw [decide_eq_decide.mpr hiff]

/-! ### UTF-32 structure -/

/-- A buffer accepted by `utf32_impl` `validate` has length a multiple of 4
(otherwise the short trailing chunk is rejected). -/
theorem utf32Scan_ok_mod4 {conv : Nat → Nat → Nat → Nat → Nat} :
    ∀ (bytes : List Nat) (idx : Nat), utf32Scan conv idx bytes = .ok →
      bytes.length % 4 = 0
  | [], _, _ => by simp
  | b0 :: b1 :: b2 :: b3 :: rest, idx, h => by
    simp only [utf32Scan] at h
    split at h
    · exact absurd h (by simp)
    · have := utf32Scan_ok_mod4 rest (idx + 1) h
      simp only [List.length_cons]
      omega
  | [_], _, h => by simp [utf32Scan] at h
  | [_, _], _, h => by simp [utf32Scan] at h
  | [_, _, _], _, h => by simp [utf32Scan] at h

/-- A buffer whose length is a multiple of 4 is fully consumed by the UTF-32
decode iteration, four bytes per character. -/
theorem utf32_steps {e : Enc} {conv : Nat → Nat → Nat → Nat → Nat}
    (hdec : ∀ bs, decodeOne e bs = utf32DecodeOne conv bs) :
    ∀ (fuel : Nat) (bytes : List Nat), bytes.length ≤ fuel → bytes.length % 4 = 0 →
      ∃ steps, decodeSteps e fuel bytes = some steps ∧ ∀ p ∈ steps, p.2 = 4 := by
  intro fuel
  induction fuel with
  | zero =>
    intro bytes hlen _
    have : bytes = [] := List.eq_nil_of_length_eq_zero (by omega)
    subst this
    exact ⟨[], rfl, by simp⟩
  | succ n ih =>
    intro bytes hlen hmod
    rcases bytes with _ | ⟨b0, _ | ⟨b1, _ | ⟨b2, _ | ⟨b3, rest⟩⟩⟩⟩
    · exact ⟨[], rfl, by simp⟩
    · simp at hmod
    · simp at hmod
    · simp at hmod
    · simp only [List.length_cons] at hlen hmod
      obtain ⟨steps2, hs2, hw2⟩ := ih rest (by omega) (by omega)
      have hd : decodeOne e (b0 :: b1 :: b2 :: b3 :: rest) = some (conv b0 b1 b2 b3, 4) := by
        rw [hdec]; rfl
      refine ⟨(conv b0 b1 b2 b3, 4) :: steps2, ?_, ?_⟩
      · simp only [decodeSteps, Option.bind_eq_bind, hd, Option.some_bind,
          List.drop_succ_cons, List.drop_zero, hs2, Option.some_bind]
      · intro p hp
        rcases List.mem_cons.mp hp with rfl | hmem
        · rfl
        · exact hw2 p hmem

/-! ### UTF-8 structure -/

/-- Unfold one accepted character from a successful UTF-8 scan. -/
theorem utf8ScanLoop_ok_cons {idx b0 : Nat} {rest : List Nat}
    (h : utf8ScanLoop idx (b0 :: rest) = .ok) :
    ∃ c w, utf8Step (b0 :: rest) = .char c w ∧
      utf8ScanLoop (idx + w) ((b0 :: rest).drop w) = .ok := by
  rw [utf8ScanLoop] at h
  cases hstep : utf8Step (b0 :: rest) with
  | bad e => rw [hstep] at h; exact absurd h (by simp)
  | char c w =>
    rw [hstep] at h
    refine ⟨c, w, rfl, ?_⟩
    have hw := (utf8Step_width hstep).1
    rcases w with _ | k
    · omega
    · simpa using h

/-- The byte at offset `j` of an accepted UTF-8 sequence exists, and is a
continuation byte exactly when `j` is not the leading offset. -/
theorem utf8Step_bytes {bytes : List Nat} {c w : Nat} (h : utf8Step bytes = .char c w) :
    ∀ j, j < w → ∃ b, bytes.get? j = some b ∧ ((0x80 ≤ b ∧ b < 0xC0) ↔ 1 ≤ j) := by
  match bytes with
  | [] => simp [utf8Step] at h
  | b0 :: rest =>
    simp only [utf8Step] at h
    split at h
    · next h1 =>
      obtain ⟨rfl, rfl⟩ := Utf8Step.char.inj h
      intro j hj
      interval_cases j
      exact ⟨b0, rfl, by omega⟩
    · split at h
      · exact absurd h (by simp)
      · next h1 h2 =>
        split at h
        · split at h
          · exact absurd h (by simp)
          · next b1 hb1 =>
            split at h
            · next hcont =>
              obtain ⟨rfl, rfl⟩ := Utf8Step.char.inj h
              have hc1 := of_decide_eq_true hcont
              intro j hj
              interval_cases j
              · exact ⟨b0, rfl, by omega⟩
              · exact ⟨b1, hb1, by omega⟩
            · exact absurd h (by simp)
        · split at h
          · split at h
            · exact absurd h (by simp)
            · next b1 hb1 =>
              split at h
              · next hsnd =>
                have hs3 := of_decide_eq_true hsnd
                split at h
                · exact absurd h (by simp)
                · next b2 hb2 =>
                  split at h
                  · next hcont =>
                    obtain ⟨rfl, rfl⟩ := Utf8Step.char.inj h
                    have hc2 := of_decide_eq_true hcont
                    intro j hj
                    interval_cases j
                    · exact ⟨b0, rfl, by omega⟩
                    · exact ⟨b1, hb1, by omega⟩
                    · exact ⟨b2, hb2, by omega⟩
                  · exact absurd h (by simp)
              · exact absurd h (by simp)
          · split at h
            · split at h
              · exact absurd h (by simp)
              · next b1 hb1 =>
                split at h
                · next hsnd =>
                  have hs4 := of_decide_eq_true hsnd
                  split at h
                  · exact absurd h (by simp)
                  · next b2 hb2 =>
                    split at h
                    · next hcont2 =>
                      have hc2 := of_decide_eq_true hcont2
                      split at h
                      · exact absurd h (by simp)
                      · next b3 hb3 =>
                        split at h
                        · next hcont3 =>
                          obtain ⟨rfl, rfl⟩ := Utf8Step.char.inj h
                          have hc3 := of_decide_eq_true hcont3
                          intro j hj
                          interval_cases j
                          · exact ⟨b0, rfl, by omega⟩
                          · exact ⟨b1, hb1, by omega⟩
                          · exact ⟨b2, hb2, by omega⟩
                          · exact ⟨b3, hb3, by omega⟩
                        · exact absurd h (by simp)
                    · exact absurd h (by simp)
                · exact absurd h (by simp)
            · exact absurd h (by simp)

/-- A buffer accepted by the UTF-8 scan is fully consumed by the decode
iteration. -/
theorem utf8_steps :
    ∀ (fuel : Nat) (bytes : List Nat) (idx : Nat), bytes.length ≤ fuel →
      utf8ScanLoop idx bytes = .ok →
      ∃ steps, decodeSteps .utf8 fuel bytes = some steps := by
  intro fuel
  induction fuel with
  | zero =>
    intro bytes idx hlen _
    have : bytes = [] := List.eq_nil_of_length_eq_zero (by omega)
    subst this
    exact ⟨[], rfl⟩
  | succ n ih =>
    intro bytes idx hlen hok
    cases bytes with
    | nil => exact ⟨[], rfl⟩
    | cons b0 rest =>
      obtain ⟨c, w, hstep, hok2⟩ := utf8ScanLoop_ok_cons hok
      have hw := utf8Step_width hstep
      simp only [List.length_cons] at hlen hw
      obtain ⟨steps2, hs2⟩ := ih ((b0 :: rest).drop w) (idx + w)
        (by simp only [List.length_drop, List.length_cons]; omega) hok2
      have hd : decodeOne .utf8 (b0 :: rest) = some (c, w) := by
        simp [decodeOne, hstep]
      exact ⟨(c, w) :: steps2, by
        simp only [decodeSteps, Option.bind_eq_bind, hd, Option.some_bind, hs2,
          Option.some_bind]⟩

/-- On a buffer accepted by the UTF-8 scan, a byte is a non-continuation
byte exactly when its offset starts a character of the decode iteration. -/
theorem utf8_startsClass :
    ∀ (fuel : Nat) (bytes : List Nat) (idx : Nat), bytes.length ≤ fuel →
      utf8ScanLoop idx bytes = .ok →
      ∀ (f2 : Nat) (steps : List (Nat × Nat)), decodeSteps .utf8 f2 bytes = some steps →
      ∀ i b, bytes.get? i = some b →
        ((b < 0x80 ∨ 0xC0 ≤ b) ↔ i ∈ charStartsOf 0 steps) := by
  intro fuel
  induction fuel with
  | zero =>
    intro bytes idx hlen _ f2 steps _ i b hget
    have : bytes = [] := List.eq_nil_of_length_eq_zero (by omega)
    subst this
    simp at hget
  | succ n ih =>
    intro bytes idx hlen hok f2 steps hst i b hget
    cases bytes with
    | nil => simp at hget
    | cons b0 rest =>
      obtain ⟨c, w, hstep, hok2⟩ := utf8ScanLoop_ok_cons hok
      have hw := utf8Step_width hstep
      simp only [List.length_cons] at hlen hw
      have hd : decodeOne .utf8 (b0 :: rest) = some (c, w) := by
        simp [decodeOne, hstep]
      rcases f2 with _ | m
      · simp [decodeSteps] at hst
      · simp only [decodeSteps, Option.bind_eq_bind, hd, Option.some_bind,
          Option.bind_eq_some, Option.some.injEq] at hst
        obtain ⟨steps2, hs2, rfl⟩ := hst
        rcases Nat.lt_or_ge i w with hiw | hiw
        · obtain ⟨b2, hget2, hcls⟩ := utf8Step_bytes hstep i hiw
          rw [hget] at hget2
          obtain rfl := Option.some.inj hget2
          rw [charStartsOf_cons_mem]
          have hnw : ¬(w ≤ i) := by omega
          simp only [hnw, false_and, or_false]
          omega
        · have hget3 : ((b0 :: rest).drop w).get? (i - w) = some b := by
            rw [List.get?_eq_getElem?, List.getElem?_drop,
              show w + (i - w) = i from by omega, ← List.get?_eq_getElem?]
            exact hget
          have := ih ((b0 :: rest).drop w) (idx + w)
            (by simp only [List.length_drop, List.length_cons]; omega) hok2 m steps2 hs2
            (i - w) b hget3
          rw [charStartsOf_cons_mem]
          have hne : ¬(i = 0) := by omega
          simp only [hne, false_or]
          rw [this]
          constructor
          · intro hmem; exact ⟨hiw, hmem⟩
          · rintro ⟨_, hmem⟩; exact hmem

/-- On a buffer accepted by the UTF-8 scan, `char_bound` at any in-range
offset is the boolean "this offset starts a character". -/
theorem utf8_charBound {bytes : List Nat} (hok : utf8ScanLoop 0 bytes = .ok)
    {f2 : Nat} {steps : List (Nat × Nat)} (hst : decodeSteps .utf8 f2 bytes = some steps) :
    ∀ i, i < bytes.length →
      charBoundQ .utf8 bytes i = some (decide (i ∈ charStartsOf 0 steps)) := by
  intro i hi
  obtain ⟨b, hget⟩ : ∃ b, bytes.get? i = some b := by
    cases hg : bytes.get? i with
    | none => have := List.get?_eq_none.mp hg; omega
    | some b => exact ⟨b, rfl⟩
  have hcls := utf8_startsClass bytes.length bytes 0 (Nat.le_refl _) hok f2 steps hst i b hget
  by_cases hi0 : i = 0
  · subst hi0
    have hmem : (0 : Nat) ∈ charStartsOf 0 steps := by
      rw [← hcls]
      cases bytes with
      | nil => simp at hi
      | cons b0 rest =>
        obtain ⟨c, w, hstep, _⟩ := utf8ScanLoop_ok_cons hok
        obtain ⟨b2, hget2, hcls2⟩ := utf8Step_bytes hstep 0 (utf8Step_width hstep).1
        rw [hget] at hget2
        obtain rfl := Option.some.inj hget2
        omega
    rw [decide_eq_true hmem]
    simp [charBoundQ]
  · simp only [charBoundQ, if_neg hi0, hget]
    rw [decide_eq_decide.mpr hcls]

/-! ### Encode/decode round-trips -/

theorem lookupPair_mem : ∀ {l : List (Nat × Nat)} {c v : Nat},
    lookupPair l c = some v → (c, v) ∈ l := by
  intro l
  induction l with
  | nil => intro c v h; simp [lookupPair] at h
  | cons p rest ih =>
    intro c v h
    obtain ⟨k, w⟩ := p
    simp only [lookupPair] at h
    split at h
    · next hk =>
      obtain rfl := Option.some.inj h
      subst hk
      exact List.mem_cons_self ..
    · exact List.mem_cons_of_mem _ (ih h)

set_option maxRecDepth 8192 in
/-- The Win-1251 encode map is a right inverse of the decode table. -/
theorem win1251Table_inv : ∀ p ∈ win1251EncodeTable,
    win1251DecodeTable.get? p.2 = some p.1 := by decide

theorem posOf_get? : ∀ {l : List Nat} {c i : Nat},
    posOf l c = some i → l.get? i = some c := by
  intro l
  induction l with
  | nil => intro c i h; simp [posOf] at h
  | cons x rest ih =>
    intro c i h
    simp only [posOf] at h
    split at h
    · next hx =>
      obtain rfl := Option.some.inj h
      subst hx
      rfl
    · simp only [Option.map_eq_some'] at h
      obtain ⟨j, hj, rfl⟩ := h
      simpa using ih hj

/-- Round-trip for the two Windows-125x table codecs sharing
`win1252EncodeChar`/`win1252DecodeOne`. -/
theorem win1252_roundtrip {c : Nat} {bytes : List Nat}
    (henc : win1252EncodeChar c = some bytes) :
    win1252DecodeOne bytes = some (c, bytes.length) := by
  simp only [win1252EncodeChar] at henc
  split at henc
  · next hid =>
    obtain rfl := Option.some.inj henc
    simp only [win1252DecodeOne, List.get?_cons_zero, Option.bind_eq_bind, Option.some_bind]
    rw [if_neg (by omega)]
    rfl
  · next hid =>
    simp only [Option.map_eq_some'] at henc
    obtain ⟨p, hp, rfl⟩ := henc
    have hget := posOf_get? hp
    have hplen : p < win1252DecodeTable.length := (List.get?_eq_some.mp hget).1
    rw [win1252DecodeTable_len] at hplen
    simp only [win1252DecodeOne, List.get?_cons_zero, Option.bind_eq_bind, Option.some_bind]
    rw [if_pos (by omega), show p + 0x80 - 0x80 = p from by omega, hget]
    rfl

/-- Round-trip for UTF-16LE at the byte level. -/
theorem utf16le_roundtrip {c : Nat} (hc : IsChar c) :
    utf16DecodeOne leU16 (utf16EncodeChar leBytes16 c) =
      some (c, (utf16EncodeChar leBytes16 c).length) := by
  obtain ⟨hlt, hsur⟩ := hc
  by_cases h16 : c < 0x10000
  · simp only [utf16EncodeChar, if_pos h16, leBytes16, utf16DecodeOne,
      List.get?_cons_zero, List.get?_cons_succ, Option.bind_eq_bind, Option.some_bind]
    have hhigh : leU16 (c % 256) (c / 256 % 256) = c := by unfold leU16; omega
    rw [hhigh, if_pos (by omega)]
    rfl
  · have hh : leU16 ((0xD800 + (c - 0x10000) / 0x400) % 256)
        ((0xD800 + (c - 0x10000) / 0x400) / 256 % 256) = 0xD800 + (c - 0x10000) / 0x400 := by
      unfold leU16; omega
    have hl : leU16 ((0xDC00 + (c - 0x10000) % 0x400) % 256)
        ((0xDC00 + (c - 0x10000) % 0x400) / 256 % 256) = 0xDC00 + (c - 0x10000) % 0x400 := by
      unfold leU16; omega
    have henc : utf16EncodeChar leBytes16 c =
        [(0xD800 + (c - 0x10000) / 0x400) % 256, (0xD800 + (c - 0x10000) / 0x400) / 256 % 256,
         (0xDC00 + (c - 0x10000) % 0x400) % 256,
         (0xDC00 + (c - 0x10000) % 0x400) / 256 % 256] := by
      simp [utf16EncodeChar, if_neg h16, leBytes16]
    rw [henc, wfb_decodeOne_pair [] (by rw [hh]; exact kindOf_high_iff.mpr (by omega)),
      hh, hl]
    have hval : (0xD800 + (c - 0x10000) / 0x400 - 0xD800) * 0x400 +
        (0xDC00 + (c - 0x10000) % 0x400 - 0xDC00) + 0x10000 = c := by omega
    rw [hval]
    rfl

/-- Round-trip for UTF-16BE at the byte level. -/
theorem utf16be_roundtrip {c : Nat} (hc : IsChar c) :
    utf16DecodeOne beU16 (utf16EncodeChar beBytes16 c) =
      some (c, (utf16EncodeChar beBytes16 c).length) := by
  obtain ⟨hlt, hsur⟩ := hc
  by_cases h16 : c < 0x10000
  · simp only [utf16EncodeChar, if_pos h16, beBytes16, utf16DecodeOne,
      List.get?_cons_zero, List.get?_cons_succ, Option.bind_eq_bind, Option.some_bind]
    have hhigh : beU16 (c / 256 % 256) (c % 256) = c := by unfold beU16; omega
    rw [hhigh, if_pos (by omega)]
    rfl
  · have hh : beU16 ((0xD800 + (c - 0x10000) / 0x400) / 256 % 256)
        ((0xD800 + (c - 0x10000) / 0x400) % 256) = 0xD800 + (c - 0x10000) / 0x400 := by
      unfold beU16; omega
    have hl : beU16 ((0xDC00 + (c - 0x10000) % 0x400) / 256 % 256)
        ((0xDC00 + (c - 0x10000) % 0x400) % 256) = 0xDC00 + (c - 0x10000) % 0x400 := by
      unfold beU16; omega
    have henc : utf16EncodeChar beBytes16 c =
        [(0xD800 + (c - 0x10000) / 0x400) / 256 % 256, (0xD800 + (c - 0x10000) / 0x400) % 256,
         (0xDC00 + (c - 0x10000) % 0x400) / 256 % 256,
         (0xDC00 + (c - 0x10000) % 0x400) % 256] := by
      simp [utf16EncodeChar, if_neg h16, beBytes16]
    rw [henc, wfb_decodeOne_pair [] (by rw [hh]; exact kindOf_high_iff.mpr (by omega)),
      hh, hl]
    have hval : (0xD800 + (c - 0x10000) / 0x400 - 0xD800) * 0x400 +
        (0xDC00 + (c - 0x10000) % 0x400 - 0xDC00) + 0x10000 = c := by omega
    rw [hval]
    rfl

/-- `utf32_impl` `decode_char` on an explicit 4-byte group. -/
theorem utf32DecodeOne_quad {conv : Nat → Nat → Nat → Nat → Nat} (b0 b1 b2 b3 : Nat)
    (rest : List Nat) :
    utf32DecodeOne conv (b0 :: b1 :: b2 :: b3 :: rest) = some (conv b0 b1 b2 b3, 4) := rfl

/-- Round-trip for UTF-32LE at the byte level. -/
theorem utf32le_roundtrip {c : Nat} (hc : c < 0x110000) :
    utf32DecodeOne leU32 (leBytes32 c) = some (c, (leBytes32 c).length) := by
  have hv : leU32 (c % 256) (c / 256 % 256) (c / 65536 % 256) (c / 16777216 % 256) = c := by
    unfold leU32; omega
  rw [show leBytes32 c = [c % 256, c / 256 % 256, c / 65536 % 256, c / 16777216 % 256]
    from rfl, utf32DecodeOne_quad, hv]
  rfl

/-- Round-trip for UTF-32BE at the byte level. -/
theorem utf32be_roundtrip {c : Nat} (hc : c < 0x110000) :
    utf32DecodeOne beU32 (beBytes32 c) = some (c, (beBytes32 c).length) := by
  have hv : beU32 (c / 16777216 % 256) (c / 65536 % 256) (c / 256 % 256) (c % 256) = c := by
    unfold beU32; omega
  rw [show beBytes32 c = [c / 16777216 % 256, c / 65536 % 256, c / 256 % 256, c % 256]
    from rfl, utf32DecodeOne_quad, hv]
  rfl

/-- `utf8Step` accepting a 2-byte sequence. -/
theorem utf8Step_two {b0 b1 : Nat} (rest : List Nat) (h0 : 0xC2 ≤ b0) (h1 : b0 < 0xE0)
    (hc : 0x80 ≤ b1 ∧ b1 < 0xC0) :
    utf8Step (b0 :: b1 :: rest) = .char ((b0 - 0xC0) * 0x40 + (b1 - 0x80)) 2 := by
  have hcont : utf8Cont b1 = true := decide_eq_true hc
  simp only [utf8Step, List.get?_cons_zero]
  rw [if_neg (by omega), if_neg (by omega), if_pos h1, if_pos hcont]

/-- `utf8Step` accepting a 3-byte sequence. -/
theorem utf8Step_three {b0 b1 b2 : Nat} (rest : List Nat) (h0 : 0xE0 ≤ b0) (h1 : b0 < 0xF0)
    (hsnd : utf8Snd3 b0 b1 = true) (hc2 : 0x80 ≤ b2 ∧ b2 < 0xC0) :
    utf8Step (b0 :: b1 :: b2 :: rest) =
      .char ((b0 - 0xE0) * 0x1000 + (b1 - 0x80) * 0x40 + (b2 - 0x80)) 3 := by
  have hcont : utf8Cont b2 = true := decide_eq_true hc2
  simp only [utf8Step, List.get?_cons_zero, List.get?_cons_succ]
  rw [if_neg (by omega), if_neg (by omega), if_neg (by omega), if_pos h1, if_pos hsnd,
    if_pos hcont]

/-- `utf8Step` accepting a 4-byte sequence. -/
theorem utf8Step_four {b0 b1 b2 b3 : Nat} (rest : List Nat) (h0 : 0xF0 ≤ b0) (h1 : b0 < 0xF5)
    (hsnd : utf8Snd4 b0 b1 = true) (hc2 : 0x80 ≤ b2 ∧ b2 < 0xC0)
    (hc3 : 0x80 ≤ b3 ∧ b3 < 0xC0) :
    utf8Step (b0 :: b1 :: b2 :: b3 :: rest) =
      .char ((b0 - 0xF0) * 0x40000 + (b1 - 0x80) * 0x1000 + (b2 - 0x80) * 0x40 + (b3 - 0x80))
        4 := by
  have hcont2 : utf8Cont b2 = true := decide_eq_true hc2
  have hcont3 : utf8Cont b3 = true := decide_eq_true hc3
  simp only [utf8Step, List.get?_cons_zero, List.get?_cons_succ]
  rw [if_neg (by omega), if_neg (by omega), if_neg (by omega), if_neg (by omega),
    if_pos h1, if_pos hsnd, if_pos hcont2, if_pos hcont3]

/-- Round-trip for UTF-8: the encoder's output decodes to the same scalar,
consuming the full sequence. -/
theorem utf8_roundtrip {c : Nat} (hc : IsChar c) :
    utf8Step (utf8EncodeChar c) = .char c (utf8EncodeChar c).length := by
  obtain ⟨hlt, hsur⟩ := hc
  by_cases h1 : c < 0x80
  · rw [show utf8EncodeChar c = [c] from by simp [utf8EncodeChar, h1]]
    simp only [utf8Step]
    rw [if_pos h1]
    rfl
  · by_cases h2 : c < 0x800
    · rw [show utf8EncodeChar c = [0xC0 + c / 0x40, 0x80 + c % 0x40] from by
        simp [utf8EncodeChar, h1, h2]]
      rw [utf8Step_two [] (by omega) (by omega) (by omega)]
      have hval : (0xC0 + c / 0x40 - 0xC0) * 0x40 + (0x80 + c % 0x40 - 0x80) = c := by omega
      rw [hval]
      rfl
    · by_cases h3 : c < 0x10000
      · rw [show utf8EncodeChar c = [0xE0 + c / 0x1000, 0x80 + c / 0x40 % 0x40,
          0x80 + c % 0x40] from by simp [utf8EncodeChar, h1, h2, h3]]
        rw [utf8Step_three [] (by omega) (by omega) (decide_eq_true (by omega)) (by omega)]
        have hval : (0xE0 + c / 0x1000 - 0xE0) * 0x1000 +
            (0x80 + c / 0x40 % 0x40 - 0x80) * 0x40 + (0x80 + c % 0x40 - 0x80) = c := by omega
        rw [hval]
        rfl
      · rw [show utf8EncodeChar c = [0xF0 + c / 0x40000, 0x80 + c / 0x1000 % 0x40,
          0x80 + c / 0x40 % 0x40, 0x80 + c % 0x40] from by simp [utf8EncodeChar, h1, h2, h3]]
        rw [utf8Step_four [] (by omega) (by omega) (decide_eq_true (by omega)) (by omega) (by omega)]
        have hval : (0xF0 + c / 0x40000 - 0xF0) * 0x40000 +
            (0x80 + c / 0x1000 % 0x40 - 0x80) * 0x1000 +
            (0x80 + c / 0x40 % 0x40 - 0x80) * 0x40 + (0x80 + c % 0x40 - 0x80) = c := by omega
        rw [hval]
        rfl

/-- Round-trip for every embedded codec: `decode_char` on the exact output
of `encode_char` returns the original scalar, consuming all of it. -/
theorem encode_decode_roundtrip {e : Enc} {c : Nat} {bytes : List Nat} (hc : IsChar c)
    (henc : encodeChar e c = some bytes) :
    decodeOne e bytes = some (c, bytes.length) := by
  cases e
  case utf8 =>
    simp only [encodeChar, Option.some.injEq] at henc
    subst henc
    simp only [decodeOne, utf8_roundtrip hc]
  case utf16le =>
    simp only [encodeChar, Option.some.injEq] at henc
    subst henc
    exact utf16le_roundtrip hc
  case utf16be =>
    simp only [encodeChar, Option.some.injEq] at henc
    subst henc
    exact utf16be_roundtrip hc
  case utf32le =>
    simp only [encodeChar, Option.some.injEq] at henc
    subst henc
    exact utf32le_roundtrip hc.1
  case utf32be =>
    simp only [encodeChar, Option.some.injEq] at henc
    subst henc
    exact utf32be_roundtrip hc.1
  case ascii =>
    simp only [encodeChar] at henc
    split at henc
    · exact absurd henc (by simp)
    · obtain rfl := Option.some.inj henc
      rfl
  case extAscii =>
    simp only [encodeChar] at henc
    split at henc
    · obtain rfl := Option.some.inj henc
      rfl
    · exact absurd henc (by simp)
  case win1251 =>
    simp only [encodeChar] at henc
    split at henc
    · next hlt =>
      obtain rfl := Option.some.inj henc
      simp only [decodeOne, List.get?_cons_zero, Option.bind_eq_bind, Option.some_bind]
      rw [if_pos hlt]
      rfl
    · next hge =>
      simp only [Option.map_eq_some'] at henc
      obtain ⟨i, hi, rfl⟩ := henc
      have hinv := win1251Table_inv _ (lookupPair_mem hi)
      simp only [decodeOne, List.get?_cons_zero, Option.bind_eq_bind, Option.some_bind]
      rw [if_neg (by omega), show i + 0x80 - 0x80 = i from by omega, hinv]
      rfl
  case win1252 =>
    simp only [encodeChar] at henc
    exact win1252_roundtrip henc
  case win1252loose =>
    simp only [encodeChar] at henc
    exact win1252_roundtrip henc

/-- A constant decode width propagates to every step of the iteration. -/
theorem decodeSteps_width_const {e : Enc} {k : Nat}
    (hW : ∀ bs c w, decodeOne e bs = some (c, w) → w = k) :
    ∀ {fuel : Nat} {bytes : List Nat} {steps : List (Nat × Nat)},
      decodeSteps e fuel bytes = some steps → ∀ p ∈ steps, p.2 = k := by
  intro fuel
  induction fuel with
  | zero =>
    intro bytes steps h p hp
    cases bytes with
    | nil =>
      simp only [decodeSteps, Option.some.injEq] at h
      subst h
      simp at hp
    | cons b rest => simp [decodeSteps] at h
  | succ n ih =>
    intro bytes steps h p hp
    cases bytes with
    | nil =>
      simp only [decodeSteps, Option.some.injEq] at h
      subst h
      simp at hp
    | cons b rest =>
      simp only [decodeSteps, Option.bind_eq_bind, Option.bind_eq_some,
        Option.some.injEq] at h
      obtain ⟨⟨c, w⟩, hcw, steps2, hs2, rfl⟩ := h
      rcases List.mem_cons.mp hp with rfl | hmem
      · exact hW _ _ _ hcw
      · exact ih hs2 p hmem

/-- UTF-32 decoding always consumes 4 bytes. -/
theorem utf32DecodeOne_width {conv : Nat → Nat → Nat → Nat → Nat} {bs : List Nat}
    {c w : Nat} (h : utf32DecodeOne conv bs = some (c, w)) : w = 4 := by
  simp only [utf32DecodeOne, Option.bind_eq_bind, Option.bind_eq_some,
    Option.some.injEq, Prod.mk.injEq] at h
  obtain ⟨_, _, _, _, _, _, _, _, _, hw⟩ := h
  omega

/-- Every validated buffer is fully consumed by the decode iteration. -/
theorem valid_steps {e : Enc} {bytes : List Nat} (hab : AllBytes bytes)
    (hv : validate e bytes = .ok) :
    ∃ steps, decodeSteps e bytes.length bytes = some steps := by
  cases e
  case utf8 => exact utf8_steps bytes.length bytes 0 (Nat.le_refl _) hv
  case utf16le =>
    obtain ⟨heven, hscan⟩ := utf16Validate_ok hv
    exact wfb_steps ((fun bs => rfl) : ∀ bs, decodeOne .utf16le bs = utf16DecodeOne leU16 bs)
      (utf16Scan_wfb bytes.length bytes (Nat.le_refl _) heven 0 hscan)
      bytes.length (Nat.le_refl _)
  case utf16be =>
    obtain ⟨heven, hscan⟩ := utf16Validate_ok hv
    exact wfb_steps ((fun bs => rfl) : ∀ bs, decodeOne .utf16be bs = utf16DecodeOne beU16 bs)
      (utf16Scan_wfb bytes.length bytes (Nat.le_refl _) heven 0 hscan)
      bytes.length (Nat.le_refl _)
  case utf32le =>
    obtain ⟨steps, hs, _⟩ := utf32_steps
      ((fun bs => rfl) : ∀ bs, decodeOne .utf32le bs = utf32DecodeOne leU32 bs)
      bytes.length bytes (Nat.le_refl _) (utf32Scan_ok_mod4 bytes 0 hv)
    exact ⟨steps, hs⟩
  case utf32be =>
    obtain ⟨steps, hs, _⟩ := utf32_steps
      ((fun bs => rfl) : ∀ bs, decodeOne .utf32be bs = utf32DecodeOne beU32 bs)
      bytes.length bytes (Nat.le_refl _) (utf32Scan_ok_mod4 bytes 0 hv)
    exact ⟨steps, hs⟩
  case ascii =>
    obtain ⟨steps, hs, _⟩ := singleByte_steps (e := .ascii) rfl bytes.length bytes hab
      (Nat.le_refl _)
    exact ⟨steps, hs⟩
  case extAscii =>
    obtain ⟨steps, hs, _⟩ := singleByte_steps (e := .extAscii) rfl bytes.length bytes hab
      (Nat.le_refl _)
    exact ⟨steps, hs⟩
  case win1251 =>
    obtain ⟨steps, hs, _⟩ := singleByte_steps (e := .win1251) rfl bytes.length bytes hab
      (Nat.le_refl _)
    exact ⟨steps, hs⟩
  case win1252 =>
    obtain ⟨steps, hs, _⟩ := singleByte_steps (e := .win1252) rfl bytes.length bytes hab
      (Nat.le_refl _)
    exact ⟨steps, hs⟩
  case win1252loose =>
    obtain ⟨steps, hs, _⟩ := singleByte_steps (e := .win1252loose) rfl bytes.length bytes hab
      (Nat.le_refl _)
    exact ⟨steps, hs⟩

/-- The accessed high-order byte of a UTF-16LE code unit detects a low
surrogate. -/
theorem utf16le_lowByte : ∀ (b0 b1 b : Nat), b0 < 256 → b1 < 256 →
    [b0, b1].get? 1 = some b → ((0xDC ≤ b ∧ b < 0xE0) ↔ kindOf (leU16 b0 b1) = .low) := by
  intro b0 b1 b h0 h1 hg
  simp only [List.get?_cons_succ, List.get?_cons_zero, Option.some.injEq] at hg
  subst hg
  rw [kindOf_low_iff]
  unfold leU16
  omega

/-- The accessed high-order byte of a UTF-16BE code unit detects a low
surrogate. -/
theorem utf16be_lowByte : ∀ (b0 b1 b : Nat), b0 < 256 → b1 < 256 →
    [b0, b1].get? 0 = some b → ((0xDC ≤ b ∧ b < 0xE0) ↔ kindOf (beU16 b0 b1) = .low) := by
  intro b0 b1 b h0 h1 hg
  simp only [List.get?_cons_zero, Option.some.injEq] at hg
  subst hg
  rw [kindOf_low_iff]
  unfold beU16
  omega

/-- `valid_charBound` specialised to the single-byte codecs. -/
theorem singleByte_valid_charBound {e : Enc} (he : isSingleByte e = true)
    {bytes : List Nat} {steps : List (Nat × Nat)} (hab : AllBytes bytes)
    (hst : decodeSteps e bytes.length bytes = some steps) :
    ∀ i, i < bytes.length →
      charBoundQ e bytes i = some (decide (i ∈ charStartsOf 0 steps)) := by
  intro i hi
  obtain ⟨steps0, hs0, hw0⟩ := singleByte_steps he bytes.length bytes hab (Nat.le_refl _)
  rw [hst] at hs0
  obtain rfl := Option.some.inj hs0
  have hsum := decodeSteps_sum hst
  have hmem : i ∈ charStartsOf 0 steps := by
    rw [charStartsOf_uniform1 steps hw0 i, hsum]
    exact hi
  rw [singleByte_charBound he bytes i, decide_eq_true hmem]

/-- On a validated buffer, `char_bound` at every in-range offset is exactly
"this offset starts a character of the decode iteration". -/
theorem valid_charBound {e : Enc} {bytes : List Nat} (hab : AllBytes bytes)
    (hv : validate e bytes = .ok) {steps : List (Nat × Nat)}
    (hst : decodeSteps e bytes.length bytes = some steps) :
    ∀ i, i < bytes.length →
      charBoundQ e bytes i = some (decide (i ∈ charStartsOf 0 steps)) := by
  cases e
  case utf8 => exact utf8_charBound hv hst
  case utf16le =>
    obtain ⟨heven, hscan⟩ := utf16Validate_ok hv
    exact wfb_charBound (by omega)
      ((fun bs => rfl) : ∀ bs, decodeOne .utf16le bs = utf16DecodeOne leU16 bs)
      ((fun bs i => rfl) : ∀ bs i, charBoundQ .utf16le bs i = utf16CharBound 1 bs i)
      utf16le_lowByte
      (utf16Scan_wfb bytes.length bytes (Nat.le_refl _) heven 0 hscan) hab
      bytes.length steps hst
  case utf16be =>
    obtain ⟨heven, hscan⟩ := utf16Validate_ok hv
    exact wfb_charBound (by omega)
      ((fun bs => rfl) : ∀ bs, decodeOne .utf16be bs = utf16DecodeOne beU16 bs)
      ((fun bs i => rfl) : ∀ bs i, charBoundQ .utf16be bs i = utf16CharBound 0 bs i)
      utf16be_lowByte
      (utf16Scan_wfb bytes.length bytes (Nat.le_refl _) heven 0 hscan) hab
      bytes.length steps hst
  case utf32le =>
    intro i hi
    have hw : ∀ p ∈ steps, p.2 = 4 :=
      decodeSteps_width_const ((fun bs c w h => utf32DecodeOne_width h) :
        ∀ bs c w, decodeOne .utf32le bs = some (c, w) → w = 4) hst
    have hsum := decodeSteps_sum hst
    have hiff : i % 4 = 0 ↔ i ∈ charStartsOf 0 steps := by
      rw [charStartsOf_uniform4 steps hw i, hsum]
      omega
    simp only [charBoundQ]
    rw [decide_eq_decide.mpr hiff]
  case utf32be =>
    intro i hi
    have hw : ∀ p ∈ steps, p.2 = 4 :=
      decodeSteps_width_const ((fun bs c w h => utf32DecodeOne_width h) :
        ∀ bs c w, decodeOne .utf32be bs = some (c, w) → w = 4) hst
    have hsum := decodeSteps_sum hst
    have hiff : i % 4 = 0 ↔ i ∈ charStartsOf 0 steps := by
      rw [charStartsOf_uniform4 steps hw i, hsum]
      omega
    simp only [charBoundQ]
    rw [decide_eq_decide.mpr hiff]
  all_goals exact singleByte_valid_charBound (by rfl) hab hst

/-- On a validated buffer, `Str::is_char_boundary` never panics: the end is
a boundary, out-of-range offsets are not, and in-range offsets consult the
codec. -/
theorem valid_isCharBoundary {e : Enc} {bytes : List Nat} (hab : AllBytes bytes)
    (hv : validate e bytes = .ok) :
    ∀ idx, ∃ b, isCharBoundary e bytes idx = some b := by
  intro idx
  unfold isCharBoundary
  by_cases h1 : idx = bytes.length
  · exact ⟨true, by rw [if_pos h1]⟩
  · rw [if_neg h1]
    by_cases h2 : bytes.length < idx
    · exact ⟨false, by rw [if_pos h2]⟩
    · rw [if_neg h2]
      obtain ⟨steps, hst⟩ := valid_steps hab hv
      exact ⟨_, valid_charBound hab hv hst idx (by omega)⟩

/-! ### Divergence of `recode_lossy` on a source character with
`char_len = 0` -/

/-- Recoding the Win-1252 byte `0xFF` (the character `U+00FF`, which ASCII
cannot represent) into ASCII fails at offset 0 with a source `char_len` of 0,
whatever the output buffer. -/
theorem recode_win1252_ascii_ff (out : List Nat) :
    recode .win1252 .ascii [0xFF] out = some (.fail ⟨0, 0, .invalidChar 0xFF 0⟩ out) := by
  have h1 : charIndicesOf .win1252 [0xFF] = some [(0, 0xFF)] := rfl
  simp only [recode, h1, Option.map_some']
  have henc : encodeInto .ascii 0xFF (out.drop 0) = .inl .invalidChar := rfl
  simp only [recodeFold, henc]
  have hcl : charLen .win1252 0xFF = 0 := by decide
  rw [hcl]

/-- The `recode_lossy` loop never returns on the Win-1252 source `[0xFF]`
recoded to ASCII: the zero `char_len` skip makes no progress, so the source
pointer never advances. -/
theorem recodeLossy_ff_diverges :
    ∀ (fuel total : Nat) (out : List Nat), total ≤ out.length →
      recodeLossyLoop .win1252 .ascii 1 fuel [0xFF] total out = none := by
  intro fuel
  induction fuel with
  | zero => intro total out _; rfl
  | succ n ih =>
    intro total out htot
    rw [recodeLossyLoop, recode_win1252_ascii_ff (out.drop total)]
    simp only [List.take_append_drop]
    have hrl : charLen .ascii (replacementChar .ascii) = 1 := rfl
    rw [hrl]
    have henc : ∀ l : List Nat, 1 ≤ l.length →
        encodeInto .ascii (replacementChar .ascii) l = .inr (1, 0x1A :: l.drop 1) := by
      intro l hl
      rw [show encodeInto .ascii (replacementChar .ascii) l =
        if l.length < 1 then .inl (.needSpace 1) else .inr (1, 0x1A :: l.drop 1) from rfl]
      rw [if_neg (by omega)]
    rw [henc _ (by simp only [List.length_drop, List.length_append,
      List.length_replicate]; omega)]
    exact ih (total + 0 + 1) _ (by
      simp only [List.length_append, List.length_take, List.length_cons, List.length_drop,
        List.length_replicate]
      omega)

/-! ### The claims -/

/-- C1: the claim states that every `encode_char` output passes `validate`
for the destination encoding (the invariant licensing the unchecked `Str`
construction in `recode_into`/`recode`/`recode_lossy`). The code violates it:
`Win1251::encode_char` maps `U+241A` (the placeholder at the decode table's
gap position) to the byte `0x98`, which `Win1251::validate` rejects; the
shared `recode` default therefore reports the invalid byte `0x98` as
successfully written output. -/
theorem claim_C1_code_eval :
    encodeChar .win1251 0x241A = some [0x98] ∧
    validate .win1251 [0x98] = .err 0 (some 1) ∧
    recode .utf16le .win1251 [0x1A, 0x24] [0, 0] = some (.ok 1 [0x98, 0]) := by
  decide

/-- C2: the claim states `Str::get` returns `Some` exactly when both range
endpoints are character boundaries, and never yields a slice splitting a
character. In the code `check_bounds` maps an exclusive end bound `b` to
`b - 1` before the boundary check, so `get(0..5)` on the valid UTF-8 buffer
"A𐐷" (both 0 and 5 are boundaries) returns `None`, while `get(0..3)` on the
valid UTF-16LE buffer "ab" returns `Some` of a 3-byte slice that splits the
second character and itself fails validation. -/
theorem claim_C2_code_eval :
    validate .utf8 [0x41, 0xF0, 0x90, 0x90, 0xB7] = .ok ∧
    isCharBoundary .utf8 [0x41, 0xF0, 0x90, 0x90, 0xB7] 0 = some true ∧
    isCharBoundary .utf8 [0x41, 0xF0, 0x90, 0x90, 0xB7] 5 = some true ∧
    strGet .utf8 [0x41, 0xF0, 0x90, 0x90, 0xB7] (.incl 0) (.excl 5) = some none ∧
    validate .utf16le [0x61, 0, 0x62, 0] = .ok ∧
    strGet .utf16le [0x61, 0, 0x62, 0] (.incl 0) (.excl 3) = some (some [0x61, 0, 0x62]) ∧
    validate .utf16le [0x61, 0, 0x62] = .err 2 none := by
  refine ⟨?_, by decide, by decide, by decide, by decide, by decide, by decide⟩
  simp [validate, utf8ScanLoop, utf8Step, utf8Cont, utf8Snd3, utf8Snd4]

/-- C3: the claim states that after `validate` fails with `valid_up_to = k`,
re-validating the first `k` bytes succeeds. The UTF-16 validators violate it
on an odd-length buffer ending in a dangling high surrogate: the dangling
surrogate check reports `valid_up_to = len - 2`, an odd offset cutting the
last complete unit in half, and re-validating that prefix fails. -/
theorem claim_C3_code_eval :
    validate .utf16le [0x01, 0xD8, 0x00] = .err 1 none ∧
    validate .utf16le ([0x01, 0xD8, 0x00].take 1) = .err 0 none := by
  decide

/-- C4: on every validated buffer of each embedded codec, the `Chars`
iteration (repeated `decode_char`) terminates within `len` steps, never
reads out of bounds (a read past the buffer would surface as `none`), and
the widths of the decoded characters sum to exactly the byte length. -/
theorem claim_C4_decode_total :
    ∀ (e : Enc) (bytes : List Nat), AllBytes bytes → validate e bytes = .ok →
      ∃ steps, decodeSteps e bytes.length bytes = some steps ∧
        (steps.map (fun p => p.2)).sum = bytes.length := by
  intro e bytes hab hv
  obtain ⟨steps, hst⟩ := valid_steps hab hv
  exact ⟨steps, hst, decodeSteps_sum hst⟩

theorem claim_C4_witness :
    AllBytes [0x41, 0, 0x01, 0xD8, 0x37, 0xDC] ∧
    validate .utf16le [0x41, 0, 0x01, 0xD8, 0x37, 0xDC] = .ok ∧
    ∃ steps, decodeSteps .utf16le 6 [0x41, 0, 0x01, 0xD8, 0x37, 0xDC] = some steps ∧
      (steps.map (fun p => p.2)).sum = 6 :=
  ⟨by decide, by decide,
    claim_C4_decode_total .utf16le [0x41, 0, 0x01, 0xD8, 0x37, 0xDC] (by decide) (by decide)⟩

/-- C5: for every embedded codec, `decode_char` on the exact byte output of
`encode_char` returns the same character with an empty remainder; in
particular Win-1252 encodes the euro sign as `0x80` and decodes a buffer
starting with `0x80` back to it. -/
theorem claim_C5_roundtrip :
    (∀ (e : Enc) (c : Nat) (bytes : List Nat), IsChar c → encodeChar e c = some bytes →
      decodeOne e bytes = some (c, bytes.length)) ∧
    encodeChar .win1252 0x20AC = some [0x80] ∧
    (∀ rest : List Nat, decodeOne .win1252 (0x80 :: rest) = some (0x20AC, 1)) :=
  ⟨fun _e _c _bytes hc henc => encode_decode_roundtrip hc henc, by decide, fun _rest => rfl⟩

theorem claim_C5_witness :
    IsChar 0x10437 ∧ encodeChar .utf16le 0x10437 = some [0x01, 0xD8, 0x37, 0xDC] ∧
    decodeOne .utf16le [0x01, 0xD8, 0x37, 0xDC] = some (0x10437, 4) :=
  ⟨by decide, by decide,
    claim_C5_roundtrip.1 .utf16le 0x10437 [0x01, 0xD8, 0x37, 0xDC] (by decide) (by decide)⟩

/-- C6: the claim states `char_len` equals the encoded byte length when
`encode_char` succeeds and 0 when it fails. The code violates both halves:
`Win1252::char_len` returns 0 for `U+00FF` although `encode_char` produces
the 1-byte `0xFF` (the identity range `0xA0..=0xFF` is missing from its
check), and `Win1252Loose::char_len` returns 1 for `U+0080` although
`encode_char` cannot represent it. -/
theorem claim_C6_code_eval :
    encodeChar .win1252 0xFF = some [0xFF] ∧ charLen .win1252 0xFF = 0 ∧
    encodeChar .win1252loose 0x80 = none ∧ charLen .win1252loose 0x80 = 1 := by
  decide

/-- C7: the claim states `recode_lossy` always returns normally with output
length the sum of the destination `char_len`s. The code violates it: on the
valid Win-1252 source `[0xFF]` recoded to ASCII, the unsupported character
`U+00FF` has source `char_len` 0 (the C6 bug), so the skip makes no progress
and the loop never returns, for any amount of fuel. The claim's concrete
example does hold: UTF-8 "A𐐷b" recodes lossily to ASCII as `"A\x1Ab"`. -/
theorem claim_C7_code_eval :
    (∀ fuel : Nat, recodeLossy .win1252 .ascii [0xFF] fuel = none) ∧
    recodeLossy .utf8 .ascii [0x41, 0xF0, 0x90, 0x90, 0xB7, 0x62] 10 =
      some [0x41, 0x1A, 0x62] := by
  refine ⟨?_, by decide⟩
  intro fuel
  exact recodeLossy_ff_diverges fuel 0 _ (by simp)

/-- C8 (counterexample): the claim states `char_bound` returns a boolean
without out-of-bounds access for every offset up to and including `len`,
including UTF-16 at `i = len`. On the valid UTF-16LE buffer `[0x41, 0]`,
`char_bound` at offset 2 reads `bytes[2 + 1]`, out of bounds (a panic,
modelled as `none`), instead of returning `true`. -/
theorem claim_C8_counterexample :
    validate .utf16le [0x41, 0] = .ok ∧ charBoundQ .utf16le [0x41, 0] 2 = none := by
  decide

/-- C8 (amended): for offsets strictly below `len`, `char_bound` of every
embedded codec returns a boolean without out-of-bounds access on a validated
buffer, true exactly when the offset is the start of a character of the
`char_indices` iteration (offset 0 included); the offset `len` itself is
handled by `Str::is_char_boundary`, which answers `true` without consulting
the codec. -/
theorem claim_C8_amended :
    (∀ (e : Enc) (bytes : List Nat) (steps : List (Nat × Nat)), AllBytes bytes →
      validate e bytes = .ok → decodeSteps e bytes.length bytes = some steps →
      ∀ i, i < bytes.length →
        charBoundQ e bytes i = some (decide (i ∈ charStartsOf 0 steps))) ∧
    (∀ (e : Enc) (bytes : List Nat), isCharBoundary e bytes bytes.length = some true) := by
  refine ⟨fun e bytes steps hab hv hst => valid_charBound hab hv hst, ?_⟩
  intro e bytes
  unfold isCharBoundary
  rw [if_pos rfl]

theorem claim_C8_witness :
    AllBytes [0x41, 0, 0x01, 0xD8, 0x37, 0xDC] ∧
    validate .utf16le [0x41, 0, 0x01, 0xD8, 0x37, 0xDC] = .ok ∧
    decodeSteps .utf16le 6 [0x41, 0, 0x01, 0xD8, 0x37, 0xDC] =
      some [(0x41, 2), (0x10437, 4)] ∧
    charBoundQ .utf16le [0x41, 0, 0x01, 0xD8, 0x37, 0xDC] 4 =
      some (decide ((4 : Nat) ∈ charStartsOf 0 [(0x41, 2), (0x10437, 4)])) :=
  ⟨by decide, by decide, by decide,
    claim_C8_amended.1 .utf16le [0x41, 0, 0x01, 0xD8, 0x37, 0xDC] [(0x41, 2), (0x10437, 4)]
      (by decide) (by decide) (by decide) 4 (by decide)⟩

/-- C9: UTF-16 end-of-buffer defects (for both endiannesses, stated for any
code-unit conversion): a buffer of odd byte length whose complete code units
are fully valid fails with `valid_up_to = len - 1` and `error_len = None`;
a buffer whose complete units are a valid sequence followed by one dangling
high surrogate fails with `valid_up_to = len - 2` and `error_len = None`;
concretely UTF-16LE validation of `[0x01, 0xD8]` fails with
`valid_up_to = 0`, `error_len = None`. -/
theorem claim_C9_utf16_truncation :
    (∀ (conv : Nat → Nat → Nat) (bytes : List Nat), bytes.length % 2 = 1 →
      WFU (units2 conv bytes) → utf16Validate conv bytes = .err (bytes.length - 1) none) ∧
    (∀ (conv : Nat → Nat → Nat) (bytes us : List Nat) (u : Nat),
      units2 conv bytes = us ++ [u] → WFU us → kindOf u = .high →
      utf16Validate conv bytes = .err (bytes.length - 2) none) ∧
    validate .utf16le [0x01, 0xD8] = .err 0 none := by
  refine ⟨?_, ?_, by decide⟩
  · intro conv bytes hodd hwfu
    simp only [utf16Validate, utf16Scan_wfu hwfu 0]
    rw [if_pos hodd]
    rfl
  · intro conv bytes us u hunits hwfu hk
    simp only [utf16Validate, hunits, utf16Scan_dangling hwfu hk 0]

theorem claim_C9_witness :
    (([0x41, 0, 0x37] : List Nat).length % 2 = 1 ∧
      utf16Validate leU16 [0x41, 0, 0x37] = .err 2 none) ∧
    (units2 leU16 [0x01, 0xD8] = [] ++ [0xD801] ∧
      utf16Validate leU16 [0x01, 0xD8] = .err 0 none) :=
  ⟨⟨by decide, claim_C9_utf16_truncation.1 leU16 [0x41, 0, 0x37] (by decide)
      (WFU.char (by decide) WFU.nil)⟩,
    ⟨by decide, claim_C9_utf16_truncation.2.1 leU16 [0x01, 0xD8] [] 0xD801 (by decide)
      WFU.nil (by decide)⟩⟩

/-- C10: on every validated buffer, `Str::split_at` returns
`Some(prefix, suffix)` with `prefix = bytes[..idx]` and `suffix = bytes[idx..]`
exactly when `idx` is a character boundary strictly inside the string; it
returns `None` (without panicking) at `idx = len`, even though `len` is a
boundary, and at every `idx > len`. -/
theorem claim_C10_split_at :
    ∀ (e : Enc) (bytes : List Nat), AllBytes bytes → validate e bytes = .ok →
      (∀ idx, ∃ b, isCharBoundary e bytes idx = some b ∧
        splitAt e bytes idx = some (if b = true ∧ idx < bytes.length
          then some (bytes.take idx, bytes.drop idx) else none)) ∧
      splitAt e bytes bytes.length = some none ∧
      (∀ idx, bytes.length < idx → splitAt e bytes idx = some none) := by
  intro e bytes hab hv
  refine ⟨?_, ?_, ?_⟩
  · intro idx
    obtain ⟨b, hb⟩ := valid_isCharBoundary hab hv idx
    exact ⟨b, hb, by simp only [splitAt, hb, Option.map_some']⟩
  · have hb : isCharBoundary e bytes bytes.length = some true := by
      unfold isCharBoundary
      rw [if_pos rfl]
    simp only [splitAt, hb, Option.map_some']
    rw [if_neg (by rintro ⟨_, h⟩; omega)]
  · intro idx hgt
    have hb : isCharBoundary e bytes idx = some false := by
      unfold isCharBoundary
      rw [if_neg (by omega), if_pos hgt]
    simp only [splitAt, hb, Option.map_some']
    rw [if_neg (by rintro ⟨h, _⟩; simp at h)]

theorem claim_C10_witness :
    AllBytes [0x41, 0, 0x01, 0xD8, 0x37, 0xDC] ∧
    validate .utf16le [0x41, 0, 0x01, 0xD8, 0x37, 0xDC] = .ok ∧
    (∃ b, isCharBoundary .utf16le [0x41, 0, 0x01, 0xD8, 0x37, 0xDC] 2 = some b ∧
      splitAt .utf16le [0x41, 0, 0x01, 0xD8, 0x37, 0xDC] 2 =
        some (if b = true ∧ 2 < ([0x41, 0, 0x01, 0xD8, 0x37, 0xDC] : List Nat).length
          then some (([0x41, 0, 0x01, 0xD8, 0x37, 0xDC] : List Nat).take 2,
            ([0x41, 0, 0x01, 0xD8, 0x37, 0xDC] : List Nat).drop 2) else none)) ∧
    splitAt .utf16le [0x41, 0, 0x01, 0xD8, 0x37, 0xDC] 6 = some none :=
  ⟨by decide, by decide,
    (claim_C10_split_at .utf16le [0x41, 0, 0x01, 0xD8, 0x37, 0xDC]
      (by decide) (by decide)).1 2,
    (claim_C10_split_at .utf16le [0x41, 0, 0x01, 0xD8, 0x37, 0xDC]
      (by decide) (by decide)).2.1⟩

end Enrede
